import Mathlib

/-!
Verification of the ordinal-ordered document-tree mutation engine
(`src/server/plugins/docs/DocMod.ts` of the quanta-chat repository).

The TypeScript source is shallowly embedded: the directory state is an
association list of entry names (or absolute paths, for the cross-folder
paste operation) to opaque payloads, and each operation of the `DocMod`
class becomes a Lean function from that state (plus the request fields)
to a new state together with a structured response.

Helper functions of `DocUtil` (`checkFileAccess`, `getOrdinalFromName`,
`shiftOrdinalsDown`) are not part of the source tree; they are modelled
from the specification, and each such definition is marked
`Modelled from the spec:` in its doc comment.
-/

/-! ## Decimal digits: the model of JS `Number.prototype.toString()`,
`String.prototype.padStart(4, '0')` and `parseInt` on digit strings. -/

/-- The character for a single decimal digit value (0..9). -/
def digitChar (n : Nat) : Char := Char.ofNat (48 + n)

/-- Fuel-driven digit accumulator (structural recursion, so that closed
terms reduce in the kernel); the fuel is always sufficient below. -/
def natDigitsAux : Nat → Nat → List Char → List Char
  | 0, _, acc => acc
  | fuel + 1, n, acc =>
    if n < 10 then digitChar n :: acc
    else natDigitsAux fuel (n / 10) (digitChar (n % 10) :: acc)

/-- Decimal digit list of a natural number, most significant first;
model of JS `n.toString()` for a non-negative integer. -/
def natDigits (n : Nat) : List Char := natDigitsAux (n + 1) n []

theorem natDigitsAux_shift (fuel : Nat) : ∀ n acc,
    natDigitsAux fuel n acc = natDigitsAux fuel n [] ++ acc := by
  induction fuel with
  | zero => intro n acc; rfl
  | succ fuel ih =>
    intro n acc
    show (if n < 10 then digitChar n :: acc
        else natDigitsAux fuel (n / 10) (digitChar (n % 10) :: acc)) =
      (if n < 10 then digitChar n :: ([] : List Char)
        else natDigitsAux fuel (n / 10) (digitChar (n % 10) :: [])) ++ acc
    by_cases h10 : n < 10
    · rw [if_pos h10, if_pos h10]
      rfl
    · rw [if_neg h10, if_neg h10]
      rw [ih (n / 10) (digitChar (n % 10) :: acc), ih (n / 10) (digitChar (n % 10) :: [])]
      simp

theorem natDigitsAux_fuel (n : Nat) : ∀ fuel₁ fuel₂, n < fuel₁ → n < fuel₂ →
    natDigitsAux fuel₁ n [] = natDigitsAux fuel₂ n [] := by
  induction n using Nat.strong_induction_on with
  | _ n ih =>
    intro fuel₁ fuel₂ h₁ h₂
    match fuel₁, fuel₂ with
    | f₁ + 1, f₂ + 1 =>
      show (if n < 10 then digitChar n :: ([] : List Char)
          else natDigitsAux f₁ (n / 10) (digitChar (n % 10) :: [])) =
        (if n < 10 then digitChar n :: ([] : List Char)
          else natDigitsAux f₂ (n / 10) (digitChar (n % 10) :: []))
      by_cases h10 : n < 10
      · rw [if_pos h10, if_pos h10]
      · rw [if_neg h10, if_neg h10]
        have hdiv : n / 10 < n := Nat.div_lt_self (by omega) (by decide)
        rw [natDigitsAux_shift f₁, natDigitsAux_shift f₂]
        rw [ih (n / 10) hdiv f₁ f₂ (by omega) (by omega)]

/-- The defining recurrence of `natDigits`. -/
theorem natDigits_eq (n : Nat) :
    natDigits n = if n < 10 then [digitChar n] else natDigits (n / 10) ++ [digitChar (n % 10)] := by
  show natDigitsAux (n + 1) n [] = _
  show (if n < 10 then digitChar n :: ([] : List Char)
    else natDigitsAux n (n / 10) (digitChar (n % 10) :: [])) = _
  by_cases h10 : n < 10
  · rw [if_pos h10, if_pos h10]
  · rw [if_neg h10, if_neg h10]
    have hdiv : n / 10 < n := Nat.div_lt_self (by omega) (by decide)
    rw [natDigitsAux_shift n (n / 10) [digitChar (n % 10)]]
    rw [natDigitsAux_fuel (n / 10) n (n / 10 + 1) hdiv (by omega)]
    rfl

/-- Model of JS `n.toString()` (decimal). -/
def natToString (n : Nat) : String := String.mk (natDigits n)

/-- Model of JS `s.padStart(4, '0')`. -/
def padStart4 (s : String) : String :=
  String.mk (List.replicate (4 - s.toList.length) '0') ++ s

/-- The 4-digit zero-padded ordinal prefix, as generated at
`newOrdinal.toString().padStart(4, '0')` in DocMod. -/
def pad4 (n : Nat) : String := padStart4 (natToString n)

/-- `mkOrdinalName n base` is the full sibling name
`` pad4 n ++ "_" ++ base ``, as generated in `pasteItems`. -/
def mkOrdinalName (n : Nat) (base : String) : String := pad4 n ++ "_" ++ base

/-- Numeric value of a digit character. -/
def digitVal (c : Char) : Nat := c.toNat - 48

/-- Accumulating decimal parse of a digit-character list. -/
def parseDigitsAux (acc : Nat) : List Char → Nat
  | [] => acc
  | c :: cs => parseDigitsAux (acc * 10 + digitVal c) cs

/-- Model of JS `parseInt(s)` restricted to all-digit strings: `none`
when the string is empty or contains a non-digit (where `parseInt`
would give `NaN` for our inputs, since the engine only ever feeds it
the part of a name before the first underscore). -/
def parseIntDigits (s : String) : Option Nat :=
  if s.toList.isEmpty then none
  else if s.toList.all Char.isDigit then some (parseDigitsAux 0 s.toList)
  else none

/-- Index of the first underscore in a string; equals `s.toList.length`
when there is none (JS `indexOf` returns `-1` there, and every guard in
the source that uses the index also excludes that case). -/
def idxOfUnderscore (s : String) : Nat := s.toList.findIdx (· = '_')

/-- The ordinal parse performed inline in `pasteItems`
(lines 600-604 of DocMod.ts): take the part of the name before the
first underscore, which must exist at a positive index, and parse it. -/
def parseOrdinal (s : String) : Option Nat :=
  let i := idxOfUnderscore s
  if 0 < i ∧ i < s.toList.length then
    parseIntDigits (String.mk (s.toList.take i))
  else none

/-! ### Round-trip lemmas for the ordinal codec -/

theorem digitVal_digitChar : ∀ n, n < 10 → digitVal (digitChar n) = n := by decide

theorem isDigit_digitChar : ∀ n, n < 10 → (digitChar n).isDigit = true := by decide

theorem digitChar_ne_underscore : ∀ n, n < 10 → digitChar n ≠ '_' := by decide

theorem natDigits_all_lt_ten (n : Nat) : ∀ c ∈ natDigits n, ∃ k, k < 10 ∧ c = digitChar k := by
  induction n using Nat.strong_induction_on with
  | _ n ih =>
    rw [natDigits_eq]
    split
    · intro c hc
      simp at hc
      exact ⟨n, by omega, hc⟩
    · intro c hc
      rw [List.mem_append] at hc
      rcases hc with hc | hc
      · exact ih (n / 10) (Nat.div_lt_self (by omega) (by decide)) c hc
      · simp at hc
        exact ⟨n % 10, Nat.mod_lt _ (by decide), hc⟩

theorem natDigits_all_digits (n : Nat) : ∀ c ∈ natDigits n, c.isDigit = true := by
  intro c hc
  obtain ⟨k, hk, rfl⟩ := natDigits_all_lt_ten n c hc
  exact isDigit_digitChar k hk

theorem natDigits_ne_nil (n : Nat) : natDigits n ≠ [] := by
  rw [natDigits_eq]
  split
  · simp
  · simp

theorem parseDigitsAux_nil (a : Nat) : parseDigitsAux a [] = a := rfl

theorem parseDigitsAux_cons (a : Nat) (c : Char) (cs : List Char) :
    parseDigitsAux a (c :: cs) = parseDigitsAux (a * 10 + digitVal c) cs := rfl

theorem parseDigitsAux_append (a : Nat) (l₁ l₂ : List Char) :
    parseDigitsAux a (l₁ ++ l₂) = parseDigitsAux (parseDigitsAux a l₁) l₂ := by
  induction l₁ generalizing a with
  | nil => rfl
  | cons c cs ih =>
    rw [List.cons_append, parseDigitsAux_cons, parseDigitsAux_cons, ih]

theorem parseDigitsAux_natDigits (n : Nat) : ∀ a, parseDigitsAux a (natDigits n) = a * 10 ^ (natDigits n).length + n := by
  induction n using Nat.strong_induction_on with
  | _ n ih =>
    intro a
    rw [natDigits_eq]
    split
    · rw [parseDigitsAux_cons, parseDigitsAux_nil]
      rw [digitVal_digitChar n (by omega)]
      simp only [List.length_cons, List.length_nil]
      ring
    · rename_i h
      rw [parseDigitsAux_append]
      rw [ih (n / 10) (Nat.div_lt_self (by omega) (by decide))]
      rw [parseDigitsAux_cons, parseDigitsAux_nil]
      rw [digitVal_digitChar (n % 10) (Nat.mod_lt _ (by decide))]
      simp only [List.length_append, List.length_cons, List.length_nil]
      have hdm : n / 10 * 10 + n % 10 = n := by omega
      calc (a * 10 ^ (natDigits (n / 10)).length + n / 10) * 10 + n % 10
          = a * 10 ^ ((natDigits (n / 10)).length + (0 + 1)) + (n / 10 * 10 + n % 10) := by ring
        _ = a * 10 ^ ((natDigits (n / 10)).length + (0 + 1)) + n := by rw [hdm]

theorem parseDigitsAux_zero_natDigits (n : Nat) : parseDigitsAux 0 (natDigits n) = n := by
  rw [parseDigitsAux_natDigits]
  simp

theorem parseDigitsAux_replicate_zero (z : Nat) (l : List Char) :
    parseDigitsAux 0 (List.replicate z '0' ++ l) = parseDigitsAux 0 l := by
  induction z with
  | zero => rfl
  | succ z ih =>
    rw [List.replicate_succ, List.cons_append, parseDigitsAux_cons]
    have h0 : digitVal '0' = 0 := by decide
    rw [h0]
    exact ih

theorem natDigits_length_le (k : Nat) (hk : 1 ≤ k) : ∀ n, n < 10 ^ k → (natDigits n).length ≤ k := by
  induction k with
  | zero => omega
  | succ k ih =>
    intro n hn
    rw [natDigits_eq]
    split
    · simp only [List.length_cons, List.length_nil]
      omega
    · rename_i h
      have hk1 : 1 ≤ k := by
        by_contra hc
        have hk0 : k = 0 := by omega
        subst hk0
        have : (10:Nat) ^ (0 + 1) = 10 := by norm_num
        rw [this] at hn
        omega
      have h10 : n / 10 < 10 ^ k := by
        rw [Nat.div_lt_iff_lt_mul (by decide)]
        calc n < 10 ^ (k + 1) := hn
        _ = 10 ^ k * 10 := by ring
      have := ih hk1 (n / 10) h10
      simp only [List.length_append, List.length_cons, List.length_nil]
      omega

theorem findIdx_append_first (p : Char → Bool) (l₁ l₂ : List Char) (c : Char)
    (h₁ : ∀ x ∈ l₁, p x = false) (hc : p c = true) :
    (l₁ ++ c :: l₂).findIdx p = l₁.length := by
  induction l₁ with
  | nil => simp [List.findIdx_cons, hc]
  | cons a as ih =>
    rw [List.cons_append, List.findIdx_cons]
    rw [h₁ a (List.mem_cons_self a as)]
    simp only [cond_false, List.length_cons]
    rw [ih (fun x hx => h₁ x (List.mem_cons_of_mem a hx))]

/-- The digit-character list of the 4-digit zero-padded prefix. -/
def padList (n : Nat) : List Char :=
  List.replicate (4 - (natDigits n).length) '0' ++ natDigits n

theorem pad4_toList (n : Nat) : (pad4 n).toList = padList n := by
  show ((String.mk (List.replicate (4 - (natToString n).toList.length) '0')) ++ natToString n).data = _
  rw [String.data_append]
  rfl

theorem padList_all_digits (n : Nat) : ∀ c ∈ padList n, c.isDigit = true := by
  intro c hc
  rw [padList, List.mem_append] at hc
  rcases hc with hc | hc
  · rw [List.eq_of_mem_replicate hc]
    decide
  · exact natDigits_all_digits n c hc

theorem padList_no_underscore (n : Nat) : ∀ c ∈ padList n, (c = '_') = False := by
  intro c hc
  simp only [eq_iff_iff, iff_false]
  intro heq
  have := padList_all_digits n c hc
  rw [heq] at this
  exact absurd this (by decide)

theorem padList_length (n : Nat) (h : n ≤ 9999) : (padList n).length = 4 := by
  have hlt : n < 10 ^ 4 := by norm_num; omega
  have hle := natDigits_length_le 4 (by decide) n hlt
  rw [padList, List.length_append, List.length_replicate]
  omega

theorem parseDigitsAux_padList (n : Nat) : parseDigitsAux 0 (padList n) = n := by
  rw [padList, parseDigitsAux_replicate_zero, parseDigitsAux_zero_natDigits]

theorem stringToList_mk (l : List Char) : (String.mk l).toList = l := rfl

theorem mkOrdinalName_toList (n : Nat) (base : String) :
    (mkOrdinalName n base).toList = padList n ++ '_' :: base.toList := by
  show ((pad4 n ++ "_") ++ base).data = _
  rw [String.data_append, String.data_append]
  rw [show (pad4 n).data = padList n from pad4_toList n]
  rw [List.append_assoc]
  rfl

/-- **C8.** For every integer `n` in `[0, 9999]`, parsing the name produced
by formatting `n` (zero-padding `n` to 4 digits and appending `'_'` plus a
base name) yields ordinal `n` back, and the formatted prefix has exactly 4
digits. -/
theorem c8_ordinal_format_parse_roundtrip (n : Nat) (base : String) (h : n ≤ 9999) :
    parseOrdinal (mkOrdinalName n base) = some n ∧
    (pad4 n).toList.length = 4 ∧ (pad4 n).toList.all Char.isDigit = true := by
  have hlen := padList_length n h
  have hfind : idxOfUnderscore (mkOrdinalName n base) = 4 := by
    rw [idxOfUnderscore, mkOrdinalName_toList]
    rw [findIdx_append_first (· = '_') (padList n) base.toList '_'
      (by intro x hx; simpa using padList_no_underscore n x hx) (by simp)]
    exact hlen
  refine ⟨?_, ?_, ?_⟩
  · rw [parseOrdinal]
    simp only [hfind, mkOrdinalName_toList, stringToList_mk]
    rw [if_pos (⟨by omega, by rw [List.length_append, hlen, List.length_cons]; omega⟩ :
      0 < 4 ∧ 4 < (padList n ++ '_' :: base.toList).length)]
    rw [show (padList n ++ '_' :: base.toList).take 4 = padList n by
      rw [← hlen]; exact List.take_left _ _]
    rw [parseIntDigits]
    simp only [stringToList_mk]
    rw [if_neg (by
      simp only [List.isEmpty_iff]
      intro hnil
      have hl0 : (padList n).length = 0 := by rw [hnil]; rfl
      omega)]
    rw [if_pos (List.all_eq_true.mpr (padList_all_digits n))]
    rw [parseDigitsAux_padList]
  · rw [pad4_toList]; exact hlen
  · rw [pad4_toList]; exact List.all_eq_true.mpr (padList_all_digits n)

/-- Witness for C8 at `n = 7`, `base = "note.md"`. -/
theorem c8_witness :
    (7 : Nat) ≤ 9999 ∧
    (parseOrdinal (mkOrdinalName 7 "note.md") = some 7 ∧
      (pad4 7).toList.length = 4 ∧ (pad4 7).toList.all Char.isDigit = true) :=
  ⟨by decide, c8_ordinal_format_parse_roundtrip 7 "note.md" (by decide)⟩

/-! ## Structurally recursive string utilities

Kernel-reducible replacements for JS `split`, `trim`, `startsWith` and
the `localeCompare`-based lexicographic order (the engine's names are
plain ASCII, for which `localeCompare` agrees with code-unit order). -/

/-- Does the pattern (second argument) occur at the head of the list? -/
def startsWithCL : List Char → List Char → Bool
  | _, [] => true
  | [], _ :: _ => false
  | a :: as, b :: bs => a = b && startsWithCL as bs

/-- Split a character list on every (non-overlapping, leftmost) occurrence
of the non-empty separator; the fuel is at least the list length. -/
def splitOnAuxCL (sep : List Char) : Nat → List Char → List Char → List (List Char)
  | _, [], acc => [acc.reverse]
  | 0, l, acc => [acc.reverse ++ l]
  | fuel + 1, c :: rest, acc =>
    if startsWithCL (c :: rest) sep then
      acc.reverse :: splitOnAuxCL sep fuel (List.drop sep.length (c :: rest)) []
    else splitOnAuxCL sep fuel rest (c :: acc)

/-- Model of JS `s.split(sep)` for a non-empty separator. -/
def splitOnStr (s sep : String) : List String :=
  (splitOnAuxCL sep.toList (s.toList.length + 1) s.toList []).map String.mk

/-- JS whitespace test for `trim` (the engine only trims ASCII space). -/
def isWsChar (c : Char) : Bool := c = ' ' || c = '\n' || c = '\t' || c = '\r'

/-- Model of JS `s.trim()`. -/
def trimStr (s : String) : String :=
  String.mk (((s.toList.dropWhile isWsChar).reverse.dropWhile isWsChar).reverse)

/-- Lexicographic (code-unit) comparison of character lists: the model of
the `(a, b) => a.localeCompare(b)` sort order on ASCII names. -/
def charListLe : List Char → List Char → Bool
  | [], _ => true
  | _ :: _, [] => false
  | a :: as, b :: bs => if a = b then charListLe as bs else decide (a < b)

/-- The sort order used by `.sort((a, b) => a.localeCompare(b))`. -/
def nameLe (a b : String) : Prop := charListLe a.toList b.toList = true

instance : DecidableRel nameLe := fun _ _ => instDecidableEqBool _ _

/-! ## Paths: models of Node `path.join`, `path.dirname`, `path.basename`,
`path.extname` (POSIX), and the `DocUtil` access guard. -/

/-- Split a character list on `/` (the body of JS `p.split('/')` for the
single-character separator). -/
def splitSlash : List Char → List Char → List (List Char)
  | [], acc => [acc.reverse]
  | c :: rest, acc =>
    if c = '/' then acc.reverse :: splitSlash rest []
    else splitSlash rest (c :: acc)

/-- Model of JS `p.split('/')`. -/
def splitSlashStr (p : String) : List String := (splitSlash p.toList []).map String.mk

/-- Normalize the segment list of an absolute POSIX path: drop empty and
`.` segments, resolve `..` against the accumulated stack (clamped at the
root, as Node does for absolute paths). -/
def normSegs (acc : List String) : List String → List String
  | [] => acc.reverse
  | s :: rest =>
    if s = "" ∨ s = "." then normSegs acc rest
    else if s = ".." then normSegs (acc.drop 1) rest
    else normSegs (s :: acc) rest

/-- Join path segments with `/`. -/
def joinSegs : List String → String
  | [] => ""
  | [s] => s
  | s :: rest => s ++ "/" ++ joinSegs rest

/-- Model of Node `path.normalize` on an absolute POSIX path. -/
def normalizePath (p : String) : String :=
  "/" ++ joinSegs (normSegs [] (splitSlashStr p))

/-- Model of Node `path.join(a, b)` where `a` is absolute. -/
def pathJoin (a b : String) : String := normalizePath (a ++ "/" ++ b)

/-- Model of Node `path.basename`: the part after the last `/`. -/
def basename (p : String) : String := (splitSlashStr p).getLastD p

/-- Model of Node `path.dirname`: the part before the last `/`
(`"."` when the path has no `/`). -/
def dirname (p : String) : String :=
  let segs := splitSlashStr p
  if segs.length ≤ 1 then "."
  else
    let front := segs.dropLast
    if front = [""] then "/" else joinSegs front

/-- Index (from the front) of the last `.` in a character list. -/
def lastDotIdx (l : List Char) : Option Nat :=
  (l.reverse.findIdx? (· = '.')).map (fun i => l.length - 1 - i)

/-- Model of Node `path.extname`: the suffix of the basename from its last
`.`, empty for dotfiles and names without a dot. -/
def extname (s : String) : String :=
  let b := basename s
  match lastDotIdx b.toList with
  | none => ""
  | some 0 => ""
  | some i => String.mk (b.toList.drop i)

/-- Modelled from the spec: `DocUtil.checkFileAccess(path, root)` (the
source file `DocUtil.ts` is not part of the provided tree). Per §4.2 it
fails with `AccessDenied` unless the normalized absolute form of `path`
is equal to or a descendant of the normalized absolute form of `root`;
per the design notes the containment test is a string-prefix comparison.
Returns `true` when access is allowed; callers treat `false` as a thrown
`AccessDenied` error. -/
def checkFileAccess (p root : String) : Bool :=
  let np := normalizePath p
  let nr := normalizePath root
  np == nr || startsWithCL np.toList (nr ++ "/").toList

/-- Modelled from the spec: `DocUtil.getOrdinalFromName(name)` — the
OrdinalCodec `parse` of §4.1 (split on the first `_`, numeric prefix).
DocMod uses the result directly as a number, so a name without a valid
ordinal prefix maps to 0. -/
def getOrdinalFromName (name : String) : Nat := (parseOrdinal name).getD 0

/-- The base part of an ordinal name: everything after the first `_`. -/
def baseAfterUnderscore (name : String) : String :=
  String.mk (name.toList.drop (idxOfUnderscore name + 1))

/-! ## Single-directory state model

Most DocMod operations touch only the listing of one directory. Such a
listing is an association list from entry name to an opaque payload (the
file's content, or the subtree of a subdirectory — never inspected by
these operations). -/

/-- A directory listing: entry name ↦ opaque payload. -/
abbrev Dir := List (String × String)

/-- The entry names of a listing (model of `fs.readdirSync`). -/
def dirNames (d : Dir) : List String := d.map (·.1)

/-- Model of `fs.existsSync` inside the directory. -/
def dirHas (d : Dir) (name : String) : Bool := d.any (fun e => e.1 == name)

/-- Content lookup. -/
def dirLookup (d : Dir) (name : String) : Option String :=
  (d.find? (fun e => e.1 == name)).map (·.2)

/-- Model of `fs.writeFileSync`: replace the payload in place if the name
exists, else append a new entry. -/
def writeFile (d : Dir) (name content : String) : Dir :=
  if dirHas d name then d.map (fun e => if e.1 == name then (name, content) else e)
  else d ++ [(name, content)]

/-- Model of `fs.unlinkSync` / `fs.rmSync` on one entry. -/
def removeEntry (d : Dir) (name : String) : Dir := d.filter (fun e => e.1 != name)

/-- Rekey one entry: the per-entry effect of a collision-free rename. -/
def rekeyEntry (oldName newName : String) (e : String × String) : String × String :=
  if e.1 == oldName then (newName, e.2) else e

/-- Model of `fs.renameSync` within one directory: a POSIX rename, which
atomically replaces an existing destination entry; renaming a name to
itself is a no-op. -/
def renameEntry (d : Dir) (oldName newName : String) : Dir :=
  if oldName = newName then d
  else (d.filter (fun e => e.1 != newName)).map (rekeyEntry oldName newName)

/-- Apply a list of renames in order. -/
def applyRenames (d : Dir) : List (String × String) → Dir
  | [] => d
  | (o, w) :: rest => applyRenames (renameEntry d o w) rest

/-- Modelled from the spec: the rename list computed by
`DocUtil.shiftOrdinalsDown(n, dir, fromOrdinal, root, ignoreList)` for
the siblings of one directory — §4.3: enumerate the ordinal-named
siblings with ordinal ≥ `fromOrdinal` (skipping the ignore list),
process them in descending ordinal order, renaming ordinal →
ordinal + n (regenerated as 4 digits, per invariant 3). -/
def shiftRenames (n : Nat) (names : List String) (fromOrdinal : Nat)
    (ignoreList : Option (List String)) : List (String × String) :=
  let shiftable := names.filter (fun name =>
    match parseOrdinal name with
    | some k => decide (fromOrdinal ≤ k) && !((ignoreList.getD []).contains name)
    | none => false)
  let sorted := shiftable.insertionSort (fun a b => getOrdinalFromName b ≤ getOrdinalFromName a)
  sorted.map (fun name =>
    (name, mkOrdinalName (getOrdinalFromName name + n) (baseAfterUnderscore name)))

/-- A structured operation response: HTTP status, the `success` flag and
the message of the JSON body. -/
structure DocResponse where
  status : Nat
  success : Bool
  message : String
deriving Repr, DecidableEq

/-! ## saveFile (DocMod.ts lines 56-185) -/

/-- The `.md` default-extension step of `saveFile` (lines 63-65): a
provided new filename without an extension gets `.md` appended. An empty
string is falsy in JS and is left alone. -/
def withMdExt (nfn : String) : String :=
  if nfn ≠ "" ∧ extname nfn = "" then nfn ++ ".md" else nfn

/-- The name of the `i`-th split part (lines 144-158): part 0 keeps the
target's name; part `i > 0` takes the 4-digit form of
`originalOrdinal + i` followed by the target's name from its first
underscore on (underscore included). -/
def splitPartName (finalName : String) (originalOrdinal i : Nat) : String :=
  pad4 (originalOrdinal + i) ++ String.mk (finalName.toList.drop (idxOfUnderscore finalName))

/-- The part-writing loop of the split branch (lines 139-164): each part
is access-checked and then written trimmed; a failing check aborts the
remaining writes but keeps what was already written (the error is caught
at the operation boundary, with no rollback). -/
def writeParts (folder root finalName : String) (originalOrdinal : Nat) :
    Nat → List String → Dir → Dir × DocResponse
  | _, [], d => (d, ⟨200, true, "File split into parts successfully"⟩)
  | i, pt :: rest, d =>
    let partName := if i = 0 then finalName else splitPartName finalName originalOrdinal i
    if checkFileAccess (pathJoin folder partName) root then
      writeParts folder root finalName originalOrdinal (i + 1) rest (writeFile d partName (trimStr pt))
    else (d, ⟨500, false, "Failed to save file"⟩)

/-- Model of `DocMod.saveFile` (lines 56-185) acting on the listing of
the target directory `dir` (which the model takes to exist and be a
directory, encoding the `existsSync`/`statSync` checks of lines 86-96). -/
def saveFile (root treeFolder filename content : String) (newFileName : Option String)
    (split : Bool) (dir : Dir) : Dir × DocResponse :=
  let newFileName := newFileName.map withMdExt
  if filename = "" ∨ treeFolder = "" then
    (dir, ⟨400, false, "Filename, content, and treeFolder are required"⟩)
  else
    let absoluteFolderPath := pathJoin root treeFolder
    if !checkFileAccess absoluteFolderPath root then
      (dir, ⟨500, false, "Failed to save file"⟩)
    else
      -- lines 100-120: optional rename of the target before writing
      let renameStep : Except DocResponse (Dir × String) :=
        match newFileName with
        | some nfn =>
          if nfn ≠ "" ∧ nfn ≠ filename then
            if dirHas dir filename then
              if dirHas dir nfn then
                .error ⟨409, false, "A file with the new name already exists"⟩
              else if !checkFileAccess (pathJoin absoluteFolderPath filename) root then
                .error ⟨500, false, "Failed to save file"⟩
              else .ok (renameEntry dir filename nfn, nfn)
            else .ok (dir, nfn)
          else .ok (dir, filename)
        | none => .ok (dir, filename)
      match renameStep with
      | .error r => (dir, r)
      | .ok (dir1, finalName) =>
        if !checkFileAccess (pathJoin absoluteFolderPath finalName) root then
          (dir1, ⟨500, false, "Failed to save file"⟩)
        else if split then
          let parts := splitOnStr content "\n~\n"
          if parts.length > 1 then
            let originalOrdinal := getOrdinalFromName finalName
            let dir2 := applyRenames dir1
              (shiftRenames (parts.length - 1) (dirNames dir1) (originalOrdinal + 1) none)
            writeParts absoluteFolderPath root finalName originalOrdinal 0 parts dir2
          else
            (writeFile dir1 finalName content,
              ⟨200, true, "File saved successfully (no split delimiter found)"⟩)
        else
          (writeFile dir1 finalName content, ⟨200, true, "File saved successfully"⟩)

/-- **C2.** `saveFile` with `split = true` and content `"X\n~\nY\n~\nZ"`
applied to target `0005_note.md`, in a folder that also contains
`0006_other.md`, produces exactly: `0005_note.md` = "X" (first partition
overwrites the target in place, keeping ordinal 5), `0006_note.md` = "Y",
`0007_note.md` = "Z" (each subsequent partition gets ordinal
`originalOrdinal + index` and the target's base name), and
`0006_other.md` renamed to `0008_other.md` (siblings with ordinal ≥ 6
shifted down by `partitionCount - 1 = 2`). -/
theorem c2_saveFile_split_example :
    List.Perm
      (saveFile "/root" "/folder" "0005_note.md" "X\n~\nY\n~\nZ" none true
        [("0005_note.md", "OLD"), ("0006_other.md", "B6")]).1
      [("0005_note.md", "X"), ("0006_note.md", "Y"), ("0007_note.md", "Z"),
        ("0008_other.md", "B6")] ∧
    (saveFile "/root" "/folder" "0005_note.md" "X\n~\nY\n~\nZ" none true
        [("0005_note.md", "OLD"), ("0006_other.md", "B6")]).2.success = true := by
  constructor
  · decide
  · decide

theorem withMdExt_ne_empty (nfn : String) (h : nfn ≠ "") : withMdExt nfn ≠ "" := by
  rw [withMdExt]
  split
  · intro hc
    have := congrArg String.data hc
    rw [String.data_append] at this
    have h3 : ("" : String).data = [] := rfl
    rw [h3] at this
    have := congrArg List.length this
    simp at this
  · exact h

theorem dirLookup_map_overwrite (d : Dir) (name content : String)
    (h : dirHas d name = true) :
    dirLookup (d.map (fun e => if e.1 == name then (name, content) else e)) name = some content := by
  induction d with
  | nil => simp [dirHas] at h
  | cons e es ih =>
    by_cases he : e.1 == name
    · simp only [List.map_cons, if_pos he, dirLookup, List.find?_cons]
      rw [show (name == name) = true from by simp]
      rfl
    · have he2 : (e.1 == name) = false := by simpa using he
      rw [dirHas, List.any_cons, he2] at h
      simp only [Bool.false_or] at h
      simp only [List.map_cons, if_neg he]
      simp only [dirLookup, List.find?_cons, he2]
      exact ih h

theorem dirLookup_writeFile_self (d : Dir) (name content : String) :
    dirLookup (writeFile d name content) name = some content := by
  rw [writeFile]
  by_cases h : dirHas d name
  · rw [if_pos h]
    exact dirLookup_map_overwrite d name content h
  · rw [if_neg h]
    have hfalse : dirHas d name = false := by
      cases hdh : dirHas d name
      · rfl
      · exact absurd hdh h
    clear h
    induction d with
    | nil =>
      simp only [List.nil_append, dirLookup, List.find?_cons]
      rw [show (name == name) = true from by simp]
      rfl
    | cons e es ih =>
      rw [dirHas, List.any_cons] at hfalse
      have he : (e.1 == name) = false := by
        cases hb : (e.1 == name)
        · rfl
        · rw [hb] at hfalse; simp at hfalse
      rw [he] at hfalse
      simp only [Bool.false_or] at hfalse
      simp only [List.cons_append, dirLookup, List.find?_cons, he]
      exact ih hfalse

/-- **C9.** For every `saveFile` call where `newFileName` is provided,
differs from `filename`, and the file named `filename` does not exist in
the target directory, the rename step (including its Conflict check
against an existing file at `newFileName`) is silently skipped and the
content is written directly to the `newFileName` path, overwriting any
file already present at that name without returning a Conflict error. -/
theorem c9_saveFile_rename_skip (root treeFolder filename content nfn : String)
    (dir : Dir) (split : Bool)
    (hfn : filename ≠ "") (htf : treeFolder ≠ "")
    (hchk : checkFileAccess (pathJoin root treeFolder) root = true)
    (hnfn : nfn ≠ "")
    (hne : withMdExt nfn ≠ filename)
    (hmissing : dirHas dir filename = false)
    (hchk2 : checkFileAccess (pathJoin (pathJoin root treeFolder) (withMdExt nfn)) root = true)
    (hsplit : split = false ∨ (splitOnStr content "\n~\n").length = 1) :
    (saveFile root treeFolder filename content (some nfn) split dir).1 =
        writeFile dir (withMdExt nfn) content ∧
    (saveFile root treeFolder filename content (some nfn) split dir).2.status = 200 ∧
    (saveFile root treeFolder filename content (some nfn) split dir).2.success = true ∧
    dirLookup (saveFile root treeFolder filename content (some nfn) split dir).1
        (withMdExt nfn) = some content := by
  have hne2 : withMdExt nfn ≠ "" := withMdExt_ne_empty nfn hnfn
  have key : saveFile root treeFolder filename content (some nfn) split dir =
      if split then
        (if (splitOnStr content "\n~\n").length > 1 then
          writeParts (pathJoin root treeFolder) root (withMdExt nfn)
            (getOrdinalFromName (withMdExt nfn)) 0 (splitOnStr content "\n~\n")
            (applyRenames dir (shiftRenames ((splitOnStr content "\n~\n").length - 1)
              (dirNames dir) (getOrdinalFromName (withMdExt nfn) + 1) none))
        else (writeFile dir (withMdExt nfn) content,
          ⟨200, true, "File saved successfully (no split delimiter found)"⟩))
      else (writeFile dir (withMdExt nfn) content, ⟨200, true, "File saved successfully"⟩) := by
    rw [saveFile]
    simp only [Option.map_some']
    rw [if_neg (show ¬(filename = "" ∨ treeFolder = "") from by push_neg; exact ⟨hfn, htf⟩)]
    rw [hchk]
    simp only [Bool.not_true]
    rw [if_neg (show ¬(false = true) from by simp)]
    rw [if_pos (show withMdExt nfn ≠ "" ∧ withMdExt nfn ≠ filename from ⟨hne2, hne⟩)]
    rw [hmissing]
    rw [if_neg (show ¬(false = true) from by simp)]
    simp only [hchk2, Bool.not_true]
    rw [if_neg (show ¬(false = true) from by simp)]
  have hlook : dirLookup (writeFile dir (withMdExt nfn) content) (withMdExt nfn) = some content :=
    dirLookup_writeFile_self dir (withMdExt nfn) content
  rw [key]
  rcases hsplit with hs | hs
  · subst hs
    rw [if_neg (show ¬(false = true) from by simp)]
    exact ⟨rfl, rfl, rfl, hlook⟩
  · cases split with
    | false =>
      rw [if_neg (show ¬(false = true) from by simp)]
      exact ⟨rfl, rfl, rfl, hlook⟩
    | true =>
      rw [if_pos rfl]
      rw [if_neg (show ¬((splitOnStr content "\n~\n").length > 1) from by omega)]
      exact ⟨rfl, rfl, rfl, hlook⟩

/-- Witness for C9: the target `0001_a.md` is absent, the new name
`0002_b.md` already exists with old content, and the save overwrites it
with no Conflict. -/
theorem c9_witness :
    dirHas [("0002_b.md", "OLD")] "0001_a.md" = false ∧
    ((saveFile "/r" "/d" "0001_a.md" "NEW" (some "0002_b.md") false
        [("0002_b.md", "OLD")]).1 =
      writeFile [("0002_b.md", "OLD")] (withMdExt "0002_b.md") "NEW" ∧
    (saveFile "/r" "/d" "0001_a.md" "NEW" (some "0002_b.md") false
        [("0002_b.md", "OLD")]).2.status = 200 ∧
    (saveFile "/r" "/d" "0001_a.md" "NEW" (some "0002_b.md") false
        [("0002_b.md", "OLD")]).2.success = true ∧
    dirLookup (saveFile "/r" "/d" "0001_a.md" "NEW" (some "0002_b.md") false
        [("0002_b.md", "OLD")]).1 (withMdExt "0002_b.md") = some "NEW") :=
  ⟨by decide,
    c9_saveFile_rename_skip "/r" "/d" "0001_a.md" "NEW" "0002_b.md"
      [("0002_b.md", "OLD")] false (by decide) (by decide) (by decide) (by decide)
      (by decide) (by decide) (by decide) (Or.inl rfl)⟩

/-! ## deleteFileOrFolder (DocMod.ts lines 298-394) -/

/-- The result of a delete call: HTTP status, `success`, the aggregate
`deletedCount` and `errors` fields, and the message. -/
structure DeleteResult where
  status : Nat
  success : Bool
  deletedCount : Nat
  errors : List String
  message : String
deriving Repr, DecidableEq

/-- Is the string a plain sibling name (no path separator, not a dot
directory)? The engine's delete loop joins each requested name onto the
parent path; the single-directory model covers exactly the plain-name
calls, where that join lands on a direct sibling. -/
def plainName (s : String) : Bool :=
  !(s.toList.contains '/') && s != "." && s != ".."

/-- One iteration of the delete loop (lines 342-371): a missing target or
a failed access check adds an error line and leaves the listing alone
(the loop continues); otherwise the entry is removed (`rmSync` for a
directory, `unlinkSync` for a file — both delete the sibling entry) and
the count goes up. -/
def deleteOne (root parentPath : String) (d : Dir) (fileName : String) :
    Dir × Bool × Option String :=
  if !(dirHas d fileName) then
    (d, false, some ("File or folder not found: " ++ fileName))
  else if !(checkFileAccess (pathJoin parentPath fileName) root) then
    (d, false, some ("Failed to delete " ++ fileName ++ ": Access denied"))
  else (removeEntry d fileName, true, none)

/-- The `for (const fileName of itemsToDelete)` loop. -/
def deleteLoop (root parentPath : String) :
    List String → Dir → Nat → List String → Dir × Nat × List String
  | [], d, cnt, errs => (d, cnt, errs)
  | f :: rest, d, cnt, errs =>
    let step := deleteOne root parentPath d f
    deleteLoop root parentPath rest step.1
      (if step.2.1 then cnt + 1 else cnt) (errs ++ step.2.2.toList)

/-- Model of `DocMod.deleteFileOrFolder` (lines 298-394) acting on the
listing `d` of the parent directory (whose existence check at line 333
the model encodes by taking the listing as given). The `fileOrFolderName`
single-item mode is the singleton-list case of `itemsToDelete`. -/
def deleteFileOrFolder (root treeFolder : String) (itemsToDelete : List String)
    (d : Dir) : Dir × DeleteResult :=
  if treeFolder = "" ∨ itemsToDelete.isEmpty then
    (d, ⟨400, false, 0, [], "treeFolder and at least one item to delete are required"⟩)
  else
    let absoluteParentPath := pathJoin root treeFolder
    let res := deleteLoop root absoluteParentPath itemsToDelete d 0 []
    if itemsToDelete.length = 1 then
      if res.2.1 = 1 then
        (res.1, ⟨200, true, res.2.1, res.2.2, "Deleted successfully"⟩)
      else
        (res.1, ⟨500, false, res.2.1, res.2.2, res.2.2.headD "Failed to delete item"⟩)
    else
      (res.1, ⟨200, true, res.2.1, res.2.2,
        "Successfully deleted " ++ natToString res.2.1 ++ " of " ++
          natToString itemsToDelete.length ++ " items"⟩)

theorem deleteLoop_nil (root p : String) (d : Dir) (cnt : Nat) (errs : List String) :
    deleteLoop root p [] d cnt errs = (d, cnt, errs) := rfl

theorem deleteLoop_cons (root p f : String) (rest : List String) (d : Dir) (cnt : Nat)
    (errs : List String) :
    deleteLoop root p (f :: rest) d cnt errs =
      deleteLoop root p rest (deleteOne root p d f).1
        (if (deleteOne root p d f).2.1 then cnt + 1 else cnt)
        (errs ++ (deleteOne root p d f).2.2.toList) := rfl

theorem deleteOne_missing (root p : String) (d : Dir) (f : String)
    (h : dirHas d f = false) :
    deleteOne root p d f = (d, false, some ("File or folder not found: " ++ f)) := by
  rw [deleteOne, h]
  rfl

theorem deleteOne_ok (root p : String) (d : Dir) (f : String)
    (h1 : dirHas d f = true) (h2 : checkFileAccess (pathJoin p f) root = true) :
    deleteOne root p d f = (removeEntry d f, true, none) := by
  rw [deleteOne, h1, h2]
  rfl

theorem dirHas_removeEntry_false (d : Dir) (m n : String) (h : dirHas d n = false) :
    dirHas (removeEntry d m) n = false := by
  rw [dirHas, List.any_eq_false]
  intro e he
  rw [dirHas, List.any_eq_false] at h
  exact h e (List.mem_of_mem_filter he)

/-- **C6.** `deleteFileOrFolder` continues past per-item errors and
returns an aggregate `{deletedCount, errors[]}`; for every call given
exactly one existing name and one missing name, the result has
`deletedCount = 1` and a non-empty errors list that names the missing
item. -/
theorem c6_delete_partial (root treeFolder a b : String) (d : Dir)
    (htf : treeFolder ≠ "")
    (hcase :
      (dirHas d a = true ∧ dirHas d b = false ∧
        checkFileAccess (pathJoin (pathJoin root treeFolder) a) root = true) ∨
      (dirHas d a = false ∧ dirHas d b = true ∧
        checkFileAccess (pathJoin (pathJoin root treeFolder) b) root = true)) :
    (deleteFileOrFolder root treeFolder [a, b] d).2.deletedCount = 1 ∧
    (deleteFileOrFolder root treeFolder [a, b] d).2.errors ≠ [] ∧
    ∀ m ∈ [a, b], dirHas d m = false →
      ("File or folder not found: " ++ m) ∈ (deleteFileOrFolder root treeFolder [a, b] d).2.errors := by
  rcases hcase with ⟨ha, hb, hchk⟩ | ⟨ha, hb, hchk⟩
  · have hb2 : dirHas (removeEntry d a) b = false := dirHas_removeEntry_false d a b hb
    have hloop : deleteLoop root (pathJoin root treeFolder) [a, b] d 0 [] =
        (removeEntry d a, 1, ["File or folder not found: " ++ b]) := by
      rw [deleteLoop_cons, deleteOne_ok root (pathJoin root treeFolder) d a ha hchk]
      show deleteLoop root (pathJoin root treeFolder) [b] (removeEntry d a) 1 [] = _
      rw [deleteLoop_cons, deleteOne_missing root (pathJoin root treeFolder) (removeEntry d a) b hb2]
      rfl
    have hmain : deleteFileOrFolder root treeFolder [a, b] d =
        (removeEntry d a, ⟨200, true, 1, ["File or folder not found: " ++ b],
          "Successfully deleted 1 of 2 items"⟩) := by
      rw [deleteFileOrFolder]
      rw [if_neg (by push_neg; exact ⟨htf, by simp⟩)]
      simp only [hloop]
      rw [if_neg (by simp)]
      rfl
    rw [hmain]
    refine ⟨rfl, by simp, ?_⟩
    intro m hm hmiss
    simp only [List.mem_cons, List.not_mem_nil, or_false] at hm
    rcases hm with rfl | rfl
    · rw [ha] at hmiss; exact absurd hmiss (by simp)
    · simp
  · have ha2 : dirHas d a = false := ha
    have hloop : deleteLoop root (pathJoin root treeFolder) [a, b] d 0 [] =
        (removeEntry d b, 1, ["File or folder not found: " ++ a]) := by
      rw [deleteLoop_cons, deleteOne_missing root (pathJoin root treeFolder) d a ha2]
      show deleteLoop root (pathJoin root treeFolder) [b] d 0 ["File or folder not found: " ++ a] = _
      rw [deleteLoop_cons, deleteOne_ok root (pathJoin root treeFolder) d b hb hchk]
      rfl
    have hmain : deleteFileOrFolder root treeFolder [a, b] d =
        (removeEntry d b, ⟨200, true, 1, ["File or folder not found: " ++ a],
          "Successfully deleted 1 of 2 items"⟩) := by
      rw [deleteFileOrFolder]
      rw [if_neg (by push_neg; exact ⟨htf, by simp⟩)]
      simp only [hloop]
      rw [if_neg (by simp)]
      rfl
    rw [hmain]
    refine ⟨rfl, by simp, ?_⟩
    intro m hm hmiss
    simp only [List.mem_cons, List.not_mem_nil, or_false] at hm
    rcases hm with rfl | rfl
    · simp
    · rw [hb] at hmiss; exact absurd hmiss (by simp)

theorem deleteOne_dir_cases (root p : String) (d : Dir) (f : String) :
    (deleteOne root p d f).1 = d ∨ (deleteOne root p d f).1 = removeEntry d f := by
  rw [deleteOne]
  split
  · exact Or.inl rfl
  · split
    · exact Or.inl rfl
    · exact Or.inr rfl

theorem mem_removeEntry_of_ne (d : Dir) (n : String) (e : String × String)
    (he : e ∈ d) (hne : e.1 ≠ n) : e ∈ removeEntry d n := by
  rw [removeEntry, List.mem_filter]
  exact ⟨he, by simpa using hne⟩

theorem deleteLoop_frame (root p : String) : ∀ (items : List String) (d : Dir)
    (cnt : Nat) (errs : List String) (e : String × String), e ∈ d → e.1 ∉ items →
    e ∈ (deleteLoop root p items d cnt errs).1 := by
  intro items
  induction items with
  | nil => intro d cnt errs e he _; exact he
  | cons f rest ih =>
    intro d cnt errs e he hnotin
    rw [deleteLoop_cons]
    have hne : e.1 ≠ f := fun hc => hnotin (hc ▸ List.mem_cons_self f rest)
    have hrest : e.1 ∉ rest := fun hc => hnotin (List.mem_cons_of_mem f hc)
    rcases deleteOne_dir_cases root p d f with hcase | hcase
    · rw [hcase]
      exact ih _ _ _ e he hrest
    · rw [hcase]
      exact ih _ _ _ e (mem_removeEntry_of_ne d f e he hne) hrest

theorem deleteLoop_subset (root p : String) : ∀ (items : List String) (d : Dir)
    (cnt : Nat) (errs : List String) (e : String × String),
    e ∈ (deleteLoop root p items d cnt errs).1 → e ∈ d := by
  intro items
  induction items with
  | nil => intro d cnt errs e he; exact he
  | cons f rest ih =>
    intro d cnt errs e he
    rw [deleteLoop_cons] at he
    have := ih _ _ _ e he
    rcases deleteOne_dir_cases root p d f with hcase | hcase
    · rwa [hcase] at this
    · rw [hcase] at this
      exact List.mem_of_mem_filter this

theorem deleteFileOrFolder_dir_cases (root treeFolder : String) (items : List String)
    (d : Dir) :
    (deleteFileOrFolder root treeFolder items d).1 = d ∨
    (deleteFileOrFolder root treeFolder items d).1 =
      (deleteLoop root (pathJoin root treeFolder) items d 0 []).1 := by
  rw [deleteFileOrFolder]
  split
  · exact Or.inl rfl
  · simp only []
    split
    · split
      · exact Or.inr rfl
      · exact Or.inr rfl
    · exact Or.inr rfl

/-- **C7.** For every `deleteFileOrFolder` call (on plain sibling names),
every sibling entry not listed in the deletion request is still present,
under its unchanged name, after the operation, and no entry is ever
added or renamed: deleting a sibling never renumbers its neighbors. -/
theorem c7_delete_never_renames (root treeFolder : String) (items : List String)
    (d : Dir) (_hplain : ∀ m ∈ items, plainName m = true) :
    (∀ e ∈ d, e.1 ∉ items → e ∈ (deleteFileOrFolder root treeFolder items d).1) ∧
    (∀ e ∈ (deleteFileOrFolder root treeFolder items d).1, e ∈ d) := by
  rcases deleteFileOrFolder_dir_cases root treeFolder items d with hcase | hcase
  · rw [hcase]
    exact ⟨fun e he _ => he, fun e he => he⟩
  · rw [hcase]
    exact ⟨fun e he hn => deleteLoop_frame root (pathJoin root treeFolder) items d 0 [] e he hn,
      fun e he => deleteLoop_subset root (pathJoin root treeFolder) items d 0 [] e he⟩

/-- Witness for C7: deleting `0002_b.md` from a three-entry directory
leaves the other two entries untouched. -/
theorem c7_witness :
    (∀ m ∈ ["0002_b.md"], plainName m = true) ∧
    ((∀ e ∈ [("0001_a.md", "A"), ("0002_b.md", "B"), ("0003_c.md", "C")],
        e.1 ∉ ["0002_b.md"] →
        e ∈ (deleteFileOrFolder "/r" "/d" ["0002_b.md"]
          [("0001_a.md", "A"), ("0002_b.md", "B"), ("0003_c.md", "C")]).1) ∧
      (∀ e ∈ (deleteFileOrFolder "/r" "/d" ["0002_b.md"]
          [("0001_a.md", "A"), ("0002_b.md", "B"), ("0003_c.md", "C")]).1,
        e ∈ [("0001_a.md", "A"), ("0002_b.md", "B"), ("0003_c.md", "C")])) :=
  ⟨by decide,
    c7_delete_never_renames "/r" "/d" ["0002_b.md"]
      [("0001_a.md", "A"), ("0002_b.md", "B"), ("0003_c.md", "C")] (by decide)⟩

/-- Witness for C6: one existing name (`0001_a.md`) and one missing name
(`0009_zz.md`). -/
theorem c6_witness :
    (("/d" : String) ≠ "" ∧ dirHas [("0001_a.md", "A")] "0001_a.md" = true ∧
      dirHas [("0001_a.md", "A")] "0009_zz.md" = false ∧
      checkFileAccess (pathJoin (pathJoin "/r" "/d") "0001_a.md") "/r" = true) ∧
    ((deleteFileOrFolder "/r" "/d" ["0001_a.md", "0009_zz.md"] [("0001_a.md", "A")]).2.deletedCount = 1 ∧
    (deleteFileOrFolder "/r" "/d" ["0001_a.md", "0009_zz.md"] [("0001_a.md", "A")]).2.errors ≠ [] ∧
    ∀ m ∈ ["0001_a.md", "0009_zz.md"], dirHas [("0001_a.md", "A")] m = false →
      ("File or folder not found: " ++ m) ∈
        (deleteFileOrFolder "/r" "/d" ["0001_a.md", "0009_zz.md"] [("0001_a.md", "A")]).2.errors) :=
  ⟨⟨by decide, by decide, by decide, by decide⟩,
    c6_delete_partial "/r" "/d" "0001_a.md" "0009_zz.md" [("0001_a.md", "A")] (by decide)
      (Or.inl ⟨by decide, by decide, by decide⟩)⟩

/-! ## joinFiles (DocMod.ts lines 812-915) -/

/-- One element of the `fileData` array built by `joinFiles`
(lines 841-868). -/
structure JoinFileData where
  filename : String
  ordinal : Nat
  content : String
deriving Repr, DecidableEq

/-- The read loop of `joinFiles` (lines 843-868): per-file access check
(a failure throws, caught at the boundary with no mutation), existence
check (a missing file aborts with 404 before any mutation), then the
read; the model reads the listing, so the unreadable-file degradation to
empty content cannot fire. -/
def readJoinData (root folder : String) : List String → Dir → Except DocResponse (List JoinFileData)
  | [], _ => .ok []
  | fn :: rest, d =>
    if !checkFileAccess (pathJoin folder fn) root then
      .error ⟨500, false, "Failed to join files"⟩
    else if !(dirHas d fn) then .error ⟨404, false, "File not found: " ++ fn⟩
    else
      match readJoinData root folder rest d with
      | .error r => .error r
      | .ok tail =>
        .ok (⟨fn, getOrdinalFromName fn, (dirLookup d fn).getD ""⟩ :: tail)

/-- The deletion loop of `joinFiles` (lines 886-901): every file except
the first is unlinked after an access check; a per-file failure is
logged and the loop continues. -/
def deleteJoinRest (root folder : String) : List JoinFileData → Dir → Dir
  | [], d => d
  | f :: rest, d =>
    if checkFileAccess (pathJoin folder f.filename) root then
      deleteJoinRest root folder rest (removeEntry d f.filename)
    else deleteJoinRest root folder rest d

/-- The write-and-delete tail of `joinFiles` (lines 874-909), applied to
the ordinal-sorted `fileData`: concatenate the contents with the fixed
`"\n\n"` separator, write the result to the first (lowest-ordinal) file,
then delete the others. -/
def joinFinish (root folder : String) (d : Dir) : List JoinFileData → Dir × DocResponse
  | [] => (d, ⟨500, false, "Failed to join files"⟩)
  | firstFile :: rest =>
    let joinedContent := String.intercalate "\n\n" ((firstFile :: rest).map (·.content))
    if !checkFileAccess (pathJoin folder firstFile.filename) root then
      (d, ⟨500, false, "Failed to join files"⟩)
    else
      let d1 := writeFile d firstFile.filename joinedContent
      (deleteJoinRest root folder rest d1,
        ⟨200, true, "Successfully joined " ++ natToString (rest.length + 1) ++
          " files into " ++ firstFile.filename⟩)

/-- Model of `DocMod.joinFiles` (lines 812-915) on the listing `d` of the
tree folder. The JS in-place `fileData.sort((a, b) => a.ordinal - b.ordinal)`
is a stable ascending sort, modelled by `List.insertionSort`. -/
def joinFiles (root treeFolder : String) (filenames : List String) (d : Dir) :
    Dir × DocResponse :=
  if filenames.length < 2 then
    (d, ⟨400, false, "At least 2 filenames are required for joining"⟩)
  else if treeFolder = "" then (d, ⟨400, false, "Tree folder is required"⟩)
  else
    let absoluteFolderPath := pathJoin root treeFolder
    if !checkFileAccess absoluteFolderPath root then
      (d, ⟨500, false, "Failed to join files"⟩)
    else
      match readJoinData root absoluteFolderPath filenames d with
      | .error r => (d, r)
      | .ok fileData =>
        joinFinish root absoluteFolderPath d
          (List.insertionSort (fun x y : JoinFileData => x.ordinal ≤ y.ordinal) fileData)
theorem dirLookup_removeEntry (d : Dir) (n x : String) :
    dirLookup (removeEntry d n) x = if x = n then none else dirLookup d x := by
  by_cases hxn : x = n
  · subst hxn
    rw [if_pos rfl, dirLookup]
    have hnone : List.find? (fun e => e.1 == x) (removeEntry d x) = none := by
      rw [List.find?_eq_none]
      intro e he
      have h2 := (List.mem_filter.mp he).2
      simpa using h2
    rw [hnone]
    rfl
  · rw [if_neg hxn]
    induction d with
    | nil => rfl
    | cons e es ih =>
      rw [removeEntry, List.filter_cons]
      by_cases hen : (e.1 != n) = true
      · rw [if_pos hen]
        show dirLookup (e :: List.filter (fun e => e.1 != n) es) x = _
        cases hx : (e.1 == x) with
        | true =>
          simp only [dirLookup, List.find?_cons, hx]
        | false =>
          simp only [dirLookup, List.find?_cons, hx]
          exact ih
      · rw [if_neg hen]
        have he : e.1 = n := by simpa using hen
        have hx : (e.1 == x) = false := by
          cases hb : (e.1 == x)
          · rfl
          · exact absurd (by simpa using hb : e.1 = x) (by rw [he]; exact fun hc => hxn hc.symm)
        conv_rhs => rw [dirLookup]
        rw [List.find?_cons, hx]
        exact ih

theorem dirLookup_writeFile_other (d : Dir) (name c x : String) (h : x ≠ name) :
    dirLookup (writeFile d name c) x = dirLookup d x := by
  rw [writeFile]
  by_cases hh : dirHas d name = true
  · rw [if_pos hh]
    clear hh
    induction d with
    | nil => rfl
    | cons e es ih =>
      simp only [List.map_cons]
      by_cases he : (e.1 == name) = true
      · rw [if_pos he]
        have he2 : e.1 = name := by simpa using he
        have hhead : (name == x) = false := by
          cases hb : (name == x)
          · rfl
          · exact absurd (by simpa using hb : name = x) (fun hc => h hc.symm)
        have hhead2 : (e.1 == x) = false := by rw [he2]; exact hhead
        simp only [dirLookup, List.find?_cons, hhead, hhead2]
        exact ih
      · rw [if_neg he]
        cases hx : (e.1 == x) with
        | true => simp only [dirLookup, List.find?_cons, hx]
        | false =>
          simp only [dirLookup, List.find?_cons, hx]
          exact ih
  · rw [if_neg hh]
    clear hh
    induction d with
    | nil =>
      have hhead : (name == x) = false := by
        cases hb : (name == x)
        · rfl
        · exact absurd (by simpa using hb : name = x) (fun hc => h hc.symm)
      simp only [List.nil_append, dirLookup, List.find?_cons, hhead, List.find?_nil]
    | cons e es ih =>
      cases hx : (e.1 == x) with
      | true => simp only [List.cons_append, dirLookup, List.find?_cons, hx]
      | false =>
        simp only [List.cons_append, dirLookup, List.find?_cons, hx] at ih ⊢
        exact ih

theorem deleteJoinRest_cons (root folder : String) (f : JoinFileData)
    (rest : List JoinFileData) (d : Dir) :
    deleteJoinRest root folder (f :: rest) d =
      if checkFileAccess (pathJoin folder f.filename) root then
        deleteJoinRest root folder rest (removeEntry d f.filename)
      else deleteJoinRest root folder rest d := rfl

theorem deleteJoinRest_lookup_not_mem (root folder : String) :
    ∀ (rest : List JoinFileData) (d : Dir) (x : String),
    x ∉ rest.map (·.filename) →
    dirLookup (deleteJoinRest root folder rest d) x = dirLookup d x := by
  intro rest
  induction rest with
  | nil => intro d x _; rfl
  | cons f fr ih =>
    intro d x hx
    rw [List.map_cons] at hx
    have hxf : x ≠ f.filename := fun hc => hx (hc ▸ List.mem_cons_self _ _)
    have hxr : x ∉ fr.map (·.filename) := fun hc => hx (List.mem_cons_of_mem _ hc)
    rw [deleteJoinRest_cons]
    split
    · rw [ih _ x hxr, dirLookup_removeEntry, if_neg hxf]
    · exact ih _ x hxr

theorem deleteJoinRest_lookup_none (root folder : String) :
    ∀ (rest : List JoinFileData) (d : Dir) (x : String),
    dirLookup d x = none →
    dirLookup (deleteJoinRest root folder rest d) x = none := by
  intro rest
  induction rest with
  | nil => intro d x h; exact h
  | cons f fr ih =>
    intro d x h
    rw [deleteJoinRest_cons]
    split
    · refine ih _ x ?_
      rw [dirLookup_removeEntry]
      split
      · rfl
      · exact h
    · exact ih _ x h

theorem deleteJoinRest_lookup_mem (root folder : String) :
    ∀ (rest : List JoinFileData) (d : Dir) (x : String),
    (∀ f ∈ rest, checkFileAccess (pathJoin folder f.filename) root = true) →
    x ∈ rest.map (·.filename) →
    dirLookup (deleteJoinRest root folder rest d) x = none := by
  intro rest
  induction rest with
  | nil => intro d x _ hx; exact absurd hx (List.not_mem_nil x)
  | cons f fr ih =>
    intro d x hchk hx
    rw [deleteJoinRest_cons, if_pos (hchk f (List.mem_cons_self f fr))]
    rw [List.map_cons, List.mem_cons] at hx
    by_cases hxf : x = f.filename
    · refine deleteJoinRest_lookup_none root folder fr _ x ?_
      rw [dirLookup_removeEntry, if_pos hxf]
    · rcases hx with hx | hx
      · exact absurd hx hxf
      · exact ih _ x (fun g hg => hchk g (List.mem_cons_of_mem f hg)) hx

theorem readJoinData_nil (root folder : String) (d : Dir) :
    readJoinData root folder [] d = .ok [] := rfl

theorem readJoinData_cons (root folder fn : String) (rest : List String) (d : Dir) :
    readJoinData root folder (fn :: rest) d =
      if !checkFileAccess (pathJoin folder fn) root then
        .error ⟨500, false, "Failed to join files"⟩
      else if !(dirHas d fn) then .error ⟨404, false, "File not found: " ++ fn⟩
      else
        match readJoinData root folder rest d with
        | .error r => .error r
        | .ok tail =>
          .ok (⟨fn, getOrdinalFromName fn, (dirLookup d fn).getD ""⟩ :: tail) := rfl

theorem readJoinData_ok (root folder : String) :
    ∀ (l : List String) (d : Dir),
    (∀ fn ∈ l, checkFileAccess (pathJoin folder fn) root = true) →
    (∀ fn ∈ l, dirHas d fn = true) →
    readJoinData root folder l d =
      .ok (l.map (fun fn => ⟨fn, getOrdinalFromName fn, (dirLookup d fn).getD ""⟩)) := by
  intro l
  induction l with
  | nil => intro d _ _; rfl
  | cons fn rest ih =>
    intro d hchk hex
    rw [readJoinData_cons]
    rw [hchk fn (List.mem_cons_self fn rest), hex fn (List.mem_cons_self fn rest)]
    simp only [Bool.not_true]
    rw [if_neg (show ¬(false = true) from by simp)]
    rw [if_neg (show ¬(false = true) from by simp)]
    rw [ih d (fun g hg => hchk g (List.mem_cons_of_mem fn hg))
      (fun g hg => hex g (List.mem_cons_of_mem fn hg))]
    rfl

theorem joinFinish_cons (root folder : String) (d : Dir) (f : JoinFileData)
    (rest : List JoinFileData) :
    joinFinish root folder d (f :: rest) =
      if !checkFileAccess (pathJoin folder f.filename) root then
        (d, ⟨500, false, "Failed to join files"⟩)
      else
        (deleteJoinRest root folder rest
          (writeFile d f.filename (String.intercalate "\n\n" ((f :: rest).map (·.content)))),
          ⟨200, true, "Successfully joined " ++ natToString (rest.length + 1) ++
            " files into " ++ f.filename⟩) := rfl

/-- **C5.** `joinFiles`, given at least two named files, sorts them by
parsed ordinal ascending, concatenates their contents with the fixed
`"\n\n"` separator, writes the result to the lowest-ordinal (first
sorted) file, and deletes the remaining files; every file not named in
the call is untouched. -/
theorem c5_joinFiles_sorts_concats_deletes
    (root treeFolder : String) (filenames : List String) (d : Dir)
    (htf : treeFolder ≠ "")
    (hlen : 2 ≤ filenames.length)
    (hchk0 : checkFileAccess (pathJoin root treeFolder) root = true)
    (hchk : ∀ fn ∈ filenames, checkFileAccess (pathJoin (pathJoin root treeFolder) fn) root = true)
    (hex : ∀ fn ∈ filenames, dirHas d fn = true)
    (hnodup : filenames.Nodup) :
    ∀ hd tl, List.insertionSort (fun x y : JoinFileData => x.ordinal ≤ y.ordinal)
        (filenames.map (fun fn => ⟨fn, getOrdinalFromName fn, (dirLookup d fn).getD ""⟩)) =
        hd :: tl →
      (hd :: tl).Perm (filenames.map (fun fn =>
        (⟨fn, getOrdinalFromName fn, (dirLookup d fn).getD ""⟩ : JoinFileData))) ∧
      List.Sorted (fun x y : JoinFileData => x.ordinal ≤ y.ordinal) (hd :: tl) ∧
      (joinFiles root treeFolder filenames d).2.success = true ∧
      dirLookup (joinFiles root treeFolder filenames d).1 hd.filename =
        some (String.intercalate "\n\n" ((hd :: tl).map (·.content))) ∧
      (∀ fn ∈ filenames, fn ≠ hd.filename →
        dirLookup (joinFiles root treeFolder filenames d).1 fn = none) ∧
      (∀ n, n ∉ filenames →
        dirLookup (joinFiles root treeFolder filenames d).1 n = dirLookup d n) := by
  intro hd tl hsort
  haveI : IsTotal JoinFileData (fun x y => x.ordinal ≤ y.ordinal) :=
    ⟨fun a b => Nat.le_total a.ordinal b.ordinal⟩
  haveI : IsTrans JoinFileData (fun x y => x.ordinal ≤ y.ordinal) :=
    ⟨fun _ _ _ hab hbc => Nat.le_trans hab hbc⟩
  have hperm : (hd :: tl).Perm (filenames.map (fun fn =>
      (⟨fn, getOrdinalFromName fn, (dirLookup d fn).getD ""⟩ : JoinFileData))) :=
    hsort ▸ List.perm_insertionSort _ _
  have hsorted : List.Sorted (fun x y : JoinFileData => x.ordinal ≤ y.ordinal) (hd :: tl) :=
    hsort ▸ List.sorted_insertionSort _ _
  have hfdnames : (filenames.map (fun fn =>
      (⟨fn, getOrdinalFromName fn, (dirLookup d fn).getD ""⟩ : JoinFileData))).map (·.filename) =
      filenames := by
    rw [List.map_map]
    have h1 : List.map ((fun x : JoinFileData => x.filename) ∘ fun fn =>
        (⟨fn, getOrdinalFromName fn, (dirLookup d fn).getD ""⟩ : JoinFileData)) filenames =
        List.map id filenames := List.map_congr_left (fun a _ => rfl)
    rw [h1, List.map_id]
  have hnamesperm : ((hd :: tl).map (·.filename)).Perm filenames :=
    hfdnames ▸ hperm.map (·.filename)
  have hhdmem : hd.filename ∈ filenames :=
    hnamesperm.mem_iff.mp (by rw [List.map_cons]; exact List.mem_cons_self _ _)
  have hnamesnodup : ((hd :: tl).map (·.filename)).Nodup :=
    hnamesperm.nodup_iff.mpr hnodup
  have hhdnotintl : hd.filename ∉ tl.map (·.filename) := by
    rw [List.map_cons] at hnamesnodup
    exact (List.nodup_cons.mp hnamesnodup).1
  have htlsub : ∀ x ∈ tl.map (·.filename), x ∈ filenames := by
    intro x hx
    exact hnamesperm.mem_iff.mp (by rw [List.map_cons]; exact List.mem_cons_of_mem _ hx)
  have htlchk : ∀ f ∈ tl, checkFileAccess (pathJoin (pathJoin root treeFolder) f.filename) root = true := by
    intro f hf
    exact hchk f.filename (htlsub f.filename (List.mem_map_of_mem _ hf))
  have hmain : joinFiles root treeFolder filenames d =
      (deleteJoinRest root (pathJoin root treeFolder) tl
        (writeFile d hd.filename (String.intercalate "\n\n" ((hd :: tl).map (·.content)))),
        ⟨200, true, "Successfully joined " ++ natToString (tl.length + 1) ++
          " files into " ++ hd.filename⟩) := by
    have step1 : joinFiles root treeFolder filenames d =
        joinFinish root (pathJoin root treeFolder) d
          (List.insertionSort (fun x y : JoinFileData => x.ordinal ≤ y.ordinal)
            (filenames.map (fun fn => ⟨fn, getOrdinalFromName fn, (dirLookup d fn).getD ""⟩))) := by
      simp only [joinFiles]
      rw [if_neg (by omega)]
      rw [if_neg htf]
      rw [hchk0]
      simp only [Bool.not_true]
      rw [if_neg (show ¬(false = true) from by simp)]
      rw [readJoinData_ok root (pathJoin root treeFolder) filenames d hchk hex]
    rw [step1, hsort, joinFinish_cons]
    rw [hchk hd.filename hhdmem]
    simp only [Bool.not_true]
    rw [if_neg (show ¬(false = true) from by simp)]
  refine ⟨hperm, hsorted, ?_, ?_, ?_, ?_⟩
  · rw [hmain]
  · rw [hmain]
    simp only []
    rw [deleteJoinRest_lookup_not_mem root (pathJoin root treeFolder) tl _ hd.filename hhdnotintl]
    exact dirLookup_writeFile_self _ _ _
  · intro fn hfn hne
    rw [hmain]
    simp only []
    have hintl : fn ∈ tl.map (·.filename) := by
      have : fn ∈ (hd :: tl).map (·.filename) := hnamesperm.mem_iff.mpr hfn
      rw [List.map_cons, List.mem_cons] at this
      rcases this with h | h
      · exact absurd h hne
      · exact h
    exact deleteJoinRest_lookup_mem root (pathJoin root treeFolder) tl _ fn htlchk hintl
  · intro n hn
    rw [hmain]
    simp only []
    have hnin : n ∉ tl.map (·.filename) := fun hc => hn (htlsub n hc)
    rw [deleteJoinRest_lookup_not_mem root (pathJoin root treeFolder) tl _ n hnin]
    exact dirLookup_writeFile_other d hd.filename _ n (fun hc => hn (hc ▸ hhdmem))

/-- Witness for C5: the spec's example — joining `0002_b.md` ("B") and
`0001_a.md` ("A") leaves `0001_a.md` = "A\n\nB" and removes `0002_b.md`. -/
theorem c5_witness :
    (("/d" : String) ≠ "" ∧ 2 ≤ (["0002_b.md", "0001_a.md"] : List String).length ∧
      checkFileAccess (pathJoin "/r" "/d") "/r" = true ∧
      (∀ fn ∈ ["0002_b.md", "0001_a.md"],
        checkFileAccess (pathJoin (pathJoin "/r" "/d") fn) "/r" = true) ∧
      (∀ fn ∈ ["0002_b.md", "0001_a.md"],
        dirHas [("0002_b.md", "B"), ("0001_a.md", "A")] fn = true) ∧
      (["0002_b.md", "0001_a.md"] : List String).Nodup) ∧
    dirLookup (joinFiles "/r" "/d" ["0002_b.md", "0001_a.md"]
      [("0002_b.md", "B"), ("0001_a.md", "A")]).1 "0001_a.md" = some "A\n\nB" ∧
    dirLookup (joinFiles "/r" "/d" ["0002_b.md", "0001_a.md"]
      [("0002_b.md", "B"), ("0001_a.md", "A")]).1 "0002_b.md" = none :=
  have h := c5_joinFiles_sorts_concats_deletes "/r" "/d" ["0002_b.md", "0001_a.md"]
    [("0002_b.md", "B"), ("0001_a.md", "A")] (by decide) (by decide) (by decide)
    (by decide) (by decide) (by decide)
    ⟨"0001_a.md", 1, "A"⟩ [⟨"0002_b.md", 2, "B"⟩] (by decide)
  ⟨⟨by decide, by decide, by decide, by decide, by decide, by decide⟩,
    h.2.2.2.1, h.2.2.2.2.1 "0002_b.md" (by decide) (by decide)⟩

/-! ## moveUpOrDown (DocMod.ts lines 424-535) -/

/-- The swap response: old and new names for both swapped entries. -/
structure MoveResult where
  status : Nat
  success : Bool
  message : String
  oldName1 : String
  newName1 : String
  oldName2 : String
  newName2 : String
deriving Repr, DecidableEq

/-- The regex test `/^\d+_/.test(file)` of line 456: one or more digits
followed by an underscore. -/
def isNumberedName (name : String) : Bool :=
  let digits := name.toList.takeWhile Char.isDigit
  !digits.isEmpty && startsWithCL (name.toList.drop digits.length) ['_']

/-- JS `s.substring(0, n)`. -/
def strTake (s : String) (n : Nat) : String := String.mk (s.toList.take n)

/-- JS `s.substring(n)`. -/
def strDrop (s : String) (n : Nat) : String := String.mk (s.toList.drop n)

/-- An error `MoveResult` (the JSON error bodies carry no name fields). -/
def moveErr (status : Nat) (message : String) : MoveResult :=
  ⟨status, false, message, "", "", "", ""⟩

/-- The three-rename swap of lines 498-518, after the two files have been
chosen: swap the ordinal prefixes (text up to and including the first
underscore) while keeping each entry's base name, going through the
temporary name `temp_<now>_<currentFile>` (line 505). -/
def swapCore (absoluteParentPath root nowStamp : String) (d : Dir)
    (currentFile targetFile : String) : Dir × MoveResult :=
  let currentPrefix := strTake currentFile (idxOfUnderscore currentFile + 1)
  let targetPrefix := strTake targetFile (idxOfUnderscore targetFile + 1)
  let currentName := strDrop currentFile (idxOfUnderscore currentFile + 1)
  let targetName := strDrop targetFile (idxOfUnderscore targetFile + 1)
  let newCurrentName := targetPrefix ++ currentName
  let newTargetName := currentPrefix ++ targetName
  let tempName := "temp_" ++ nowStamp ++ "_" ++ currentFile
  if !(checkFileAccess (pathJoin absoluteParentPath currentFile) root) ||
      !(checkFileAccess (pathJoin absoluteParentPath targetFile) root) ||
      !(checkFileAccess (pathJoin absoluteParentPath tempName) root) then
    (d, moveErr 500 "Failed to move file or folder")
  else
    let d1 := renameEntry d currentFile tempName
    let d2 := renameEntry d1 targetFile newTargetName
    let d3 := renameEntry d2 tempName newCurrentName
    (d3, ⟨200, true, "Files moved successfully",
      currentFile, newCurrentName, targetFile, newTargetName⟩)

/-- Model of `DocMod.moveUpOrDown` (lines 424-535) on the listing `d` of
the parent directory. `nowStamp` stands for the `Date.now()` string used
in the temporary name. `findIdx` returns the list length where JS
`findIndex` returns `-1`; the `404` guard covers exactly that case. -/
def moveUpOrDown (root treeFolder direction filename nowStamp : String) (d : Dir) :
    Dir × MoveResult :=
  if direction = "" ∨ filename = "" ∨ treeFolder = "" ∨
      (direction ≠ "up" ∧ direction ≠ "down") then
    (d, moveErr 400 "Valid direction, filename, and treeFolder are required")
  else
    let absoluteParentPath := pathJoin root treeFolder
    if !checkFileAccess absoluteParentPath root then
      (d, moveErr 500 "Failed to move file or folder")
    else
      let numberedFiles := (dirNames d).filter isNumberedName
      let sorted := numberedFiles.insertionSort nameLe
      let currentIndex := sorted.findIdx (· == filename)
      if currentIndex = sorted.length then
        (d, moveErr 404 "File not found in directory")
      else
        if direction = "up" then
          if currentIndex = 0 then (d, moveErr 400 "File is already at the top")
          else
            swapCore absoluteParentPath root nowStamp d
              (sorted.getD currentIndex "") (sorted.getD (currentIndex - 1) "")
        else
          if currentIndex = sorted.length - 1 then
            (d, moveErr 400 "File is already at the bottom")
          else
            swapCore absoluteParentPath root nowStamp d
              (sorted.getD currentIndex "") (sorted.getD (currentIndex + 1) "")

theorem takeWhile_all_append (p : Char → Bool) (l₁ l₂ : List Char)
    (h : ∀ c ∈ l₁, p c = true) :
    (l₁ ++ l₂).takeWhile p = l₁ ++ l₂.takeWhile p := by
  induction l₁ with
  | nil => rfl
  | cons c cs ih =>
    rw [List.cons_append, List.takeWhile_cons, h c (List.mem_cons_self c cs)]
    rw [ih (fun x hx => h x (List.mem_cons_of_mem c hx))]
    rfl

theorem isNumberedName_decomp (f : String) (h : isNumberedName f = true) :
    ∃ ds rest, f.toList = ds ++ '_' :: rest ∧ ds ≠ [] ∧ ∀ c ∈ ds, c.isDigit = true := by
  rw [isNumberedName] at h
  simp only [Bool.and_eq_true] at h
  obtain ⟨hne, hsw⟩ := h
  refine ⟨f.toList.takeWhile Char.isDigit, ?_, ?_, ?_, ?_⟩
  · exact (f.toList.dropWhile Char.isDigit).tail
  · have hsplit : f.toList = f.toList.takeWhile Char.isDigit ++ f.toList.dropWhile Char.isDigit :=
      (List.takeWhile_append_dropWhile Char.isDigit f.toList).symm
    have hdrop : f.toList.drop (f.toList.takeWhile Char.isDigit).length =
        f.toList.dropWhile Char.isDigit := by
      calc f.toList.drop (f.toList.takeWhile Char.isDigit).length
          = (f.toList.takeWhile Char.isDigit ++ f.toList.dropWhile Char.isDigit).drop
            (f.toList.takeWhile Char.isDigit).length := by
            rw [List.takeWhile_append_dropWhile]
        _ = f.toList.dropWhile Char.isDigit := List.drop_left _ _
    rw [hdrop] at hsw
    cases hdw : f.toList.dropWhile Char.isDigit with
    | nil => rw [hdw] at hsw; exact absurd hsw (by decide)
    | cons c cs =>
      rw [hdw] at hsw
      have hc : c = '_' := by
        have h2 : (decide (c = '_') && startsWithCL cs []) = true := hsw
        simp only [Bool.and_eq_true, decide_eq_true_eq] at h2
        exact h2.1
      conv_lhs => rw [hsplit, hdw, hc]
      rfl
  · simpa using hne
  · intro c hc
    exact List.mem_takeWhile_imp hc

theorem digit_ne_underscore (c : Char) (h : c.isDigit = true) : c ≠ '_' := by
  intro hc
  rw [hc] at h
  exact absurd h (by decide)

theorem digit_ne_t (c : Char) (h : c.isDigit = true) : c ≠ 't' := by
  intro hc
  rw [hc] at h
  exact absurd h (by decide)

theorem idxOfUnderscore_decomp (ds rest : List Char) (hds : ∀ c ∈ ds, c.isDigit = true) :
    idxOfUnderscore (String.mk (ds ++ '_' :: rest)) = ds.length := by
  rw [idxOfUnderscore, stringToList_mk]
  exact findIdx_append_first _ ds rest '_'
    (fun c hc => by simpa using digit_ne_underscore c (hds c hc)) (by simp)

theorem take_decomp (ds rest : List Char) :
    (ds ++ '_' :: rest).take (ds.length + 1) = ds ++ ['_'] := by
  induction ds with
  | nil => rfl
  | cons c cs ih =>
    rw [List.cons_append, List.length_cons]
    rw [show cs.length + 1 + 1 = (cs.length + 1) + 1 from rfl]
    rw [List.take_succ_cons, ih]
    rfl

theorem drop_decomp (ds rest : List Char) :
    (ds ++ '_' :: rest).drop (ds.length + 1) = rest := by
  induction ds with
  | nil => rfl
  | cons c cs ih =>
    rw [List.cons_append, List.length_cons]
    rw [show cs.length + 1 + 1 = (cs.length + 1) + 1 from rfl]
    rw [List.drop_succ_cons, ih]

theorem strTake_pfx (f : String) (ds rest : List Char) (hf : f.toList = ds ++ '_' :: rest)
    (hds : ∀ c ∈ ds, c.isDigit = true) :
    strTake f (idxOfUnderscore f + 1) = String.mk (ds ++ ['_']) := by
  have hidx : idxOfUnderscore f = ds.length := by
    have : f = String.mk (ds ++ '_' :: rest) := by
      cases f with
      | mk data => exact congrArg String.mk hf
    rw [this]
    exact idxOfUnderscore_decomp ds rest hds
  rw [strTake, hidx, hf, take_decomp]

theorem strDrop_base (f : String) (ds rest : List Char) (hf : f.toList = ds ++ '_' :: rest)
    (hds : ∀ c ∈ ds, c.isDigit = true) :
    strDrop f (idxOfUnderscore f + 1) = String.mk rest := by
  have hidx : idxOfUnderscore f = ds.length := by
    have : f = String.mk (ds ++ '_' :: rest) := by
      cases f with
      | mk data => exact congrArg String.mk hf
    rw [this]
    exact idxOfUnderscore_decomp ds rest hds
  rw [strDrop, hidx, hf, drop_decomp]

theorem concat_pfx_toList (ds : List Char) (s : String) :
    (String.mk (ds ++ ['_']) ++ s).toList = ds ++ '_' :: s.toList := by
  show (String.mk (ds ++ ['_'])).data ++ s.data = _
  rw [stringToList_mk]
  rw [List.append_assoc]
  rfl

theorem concat_pfx_numbered (ds : List Char) (s : String) (hne : ds ≠ [])
    (hds : ∀ c ∈ ds, c.isDigit = true) :
    isNumberedName (String.mk (ds ++ ['_']) ++ s) = true := by
  rw [isNumberedName]
  have htl := concat_pfx_toList ds s
  rw [htl]
  have htw : (ds ++ '_' :: s.toList).takeWhile Char.isDigit = ds := by
    rw [takeWhile_all_append Char.isDigit ds ('_' :: s.toList) hds]
    rw [List.takeWhile_cons]
    rw [show ('_'.isDigit) = false from by decide]
    simp
  rw [htw]
  simp only [Bool.and_eq_true]
  constructor
  · simpa using hne
  · have hdrop : (ds ++ '_' :: s.toList).drop ds.length = '_' :: s.toList :=
      List.drop_left _ _
    rw [hdrop]
    show (decide ('_' = '_') && startsWithCL s.toList []) = true
    rw [decide_eq_true_eq.mpr rfl]
    cases s.toList with
    | nil => rfl
    | cons c cs => rfl

theorem concat_pfx_strTake (ds : List Char) (s : String)
    (hds : ∀ c ∈ ds, c.isDigit = true) :
    strTake (String.mk (ds ++ ['_']) ++ s)
      (idxOfUnderscore (String.mk (ds ++ ['_']) ++ s) + 1) = String.mk (ds ++ ['_']) := by
  have htl := concat_pfx_toList ds s
  exact strTake_pfx _ ds s.toList htl hds

theorem digits_underscore_inj (ds es r₁ r₂ : List Char)
    (hds : ∀ c ∈ ds, c.isDigit = true) (hes : ∀ c ∈ es, c.isDigit = true)
    (heq : ds ++ '_' :: r₁ = es ++ '_' :: r₂) : ds = es ∧ r₁ = r₂ := by
  have hlen : ds.length = es.length := by
    have h1 : (ds ++ '_' :: r₁).findIdx (· = '_') = ds.length :=
      findIdx_append_first _ ds r₁ '_'
        (fun c hc => by simpa using digit_ne_underscore c (hds c hc)) (by simp)
    have h2 : (es ++ '_' :: r₂).findIdx (· = '_') = es.length :=
      findIdx_append_first _ es r₂ '_'
        (fun c hc => by simpa using digit_ne_underscore c (hes c hc)) (by simp)
    rw [heq, h2] at h1
    exact h1.symm
  obtain ⟨hds_eq, htail⟩ := List.append_inj heq hlen
  exact ⟨hds_eq, by injection htail⟩

theorem renameEntry_no_collision (d : Dir) (oldName newName : String)
    (hne : oldName ≠ newName) (hnew : ∀ e ∈ d, e.1 ≠ newName) :
    renameEntry d oldName newName = d.map (rekeyEntry oldName newName) := by
  rw [renameEntry, if_neg hne]
  rw [List.filter_eq_self.mpr (fun e he => by simpa using hnew e he)]

theorem mem_dirNames_of_mem (d : Dir) (e : String × String) (he : e ∈ d) :
    e.1 ∈ dirNames d := List.mem_map_of_mem _ he

theorem rekeyEntry_pos (o n : String) (e : String × String) (h : (e.1 == o) = true) :
    rekeyEntry o n e = (n, e.2) := by
  rw [rekeyEntry, if_pos h]

theorem rekeyEntry_neg (o n : String) (e : String × String) (h : ¬(e.1 == o) = true) :
    rekeyEntry o n e = e := by
  rw [rekeyEntry, if_neg h]

theorem swap_renames_eq_map (d : Dir) (cur tgt temp newTgt newCur : String)
    (hcur_mem : cur ∈ dirNames d)
    (htgt_mem : tgt ∈ dirNames d)
    (htemp_not : temp ∉ dirNames d)
    (htgt_ne_newTgt : tgt ≠ newTgt)
    (hnewTgt_not : ∀ x ∈ dirNames d, x ≠ cur → x ≠ newTgt)
    (htemp_ne_newTgt : temp ≠ newTgt)
    (hnewCur_not : ∀ x ∈ dirNames d, x ≠ tgt → x ≠ newCur)
    (htemp_ne_newCur : temp ≠ newCur)
    (hnewCur_ne_newTgt : newCur ≠ newTgt) :
    renameEntry (renameEntry (renameEntry d cur temp) tgt newTgt) temp newCur =
      d.map (fun e => if e.1 == cur then (newCur, e.2) else
        if e.1 == tgt then (newTgt, e.2) else e) := by
  have hcur_ne_temp : cur ≠ temp := fun hc => htemp_not (hc ▸ hcur_mem)
  have htgt_ne_temp : tgt ≠ temp := fun hc => htemp_not (hc ▸ htgt_mem)
  have h1 : renameEntry d cur temp = d.map (rekeyEntry cur temp) :=
    renameEntry_no_collision d cur temp hcur_ne_temp
      (fun e he hc => htemp_not (hc ▸ mem_dirNames_of_mem d e he))
  have h2 : renameEntry (d.map (rekeyEntry cur temp)) tgt newTgt =
      (d.map (rekeyEntry cur temp)).map (rekeyEntry tgt newTgt) := by
    refine renameEntry_no_collision _ tgt newTgt htgt_ne_newTgt ?_
    intro e he hc
    rw [List.mem_map] at he
    obtain ⟨e₀, he₀, rfl⟩ := he
    rw [rekeyEntry] at hc
    by_cases h0 : (e₀.1 == cur) = true
    · rw [if_pos h0] at hc
      exact htemp_ne_newTgt hc
    · rw [if_neg h0] at hc
      exact hnewTgt_not e₀.1 (mem_dirNames_of_mem d e₀ he₀) (by simpa using h0) hc
  have h3 : renameEntry ((d.map (rekeyEntry cur temp)).map (rekeyEntry tgt newTgt)) temp newCur =
      ((d.map (rekeyEntry cur temp)).map (rekeyEntry tgt newTgt)).map (rekeyEntry temp newCur) := by
    refine renameEntry_no_collision _ temp newCur htemp_ne_newCur ?_
    intro e he hc
    rw [List.map_map, List.mem_map] at he
    obtain ⟨e₀, he₀, rfl⟩ := he
    simp only [Function.comp] at hc
    by_cases h0 : (e₀.1 == cur) = true
    · rw [rekeyEntry_pos cur temp e₀ h0] at hc
      rw [rekeyEntry_neg tgt newTgt (temp, e₀.2)
        (by simpa using htgt_ne_temp.symm)] at hc
      exact htemp_ne_newCur hc
    · rw [rekeyEntry_neg cur temp e₀ h0] at hc
      by_cases h1b : (e₀.1 == tgt) = true
      · rw [rekeyEntry_pos tgt newTgt e₀ h1b] at hc
        exact hnewCur_ne_newTgt hc.symm
      · rw [rekeyEntry_neg tgt newTgt e₀ h1b] at hc
        exact hnewCur_not e₀.1 (mem_dirNames_of_mem d e₀ he₀) (by simpa using h1b) hc
  rw [h1, h2, h3]
  rw [List.map_map, List.map_map]
  refine List.map_congr_left ?_
  intro e he
  simp only [Function.comp]
  by_cases h0 : (e.1 == cur) = true
  · rw [rekeyEntry_pos cur temp e h0]
    rw [rekeyEntry_neg tgt newTgt (temp, e.2) (by simpa using htgt_ne_temp.symm)]
    rw [rekeyEntry_pos temp newCur (temp, e.2) (by simp)]
    rw [if_pos h0]
  · rw [rekeyEntry_neg cur temp e h0]
    by_cases h1b : (e.1 == tgt) = true
    · rw [rekeyEntry_pos tgt newTgt e h1b]
      rw [rekeyEntry_neg temp newCur (newTgt, e.2) (by simpa using htemp_ne_newTgt.symm)]
      rw [if_neg h0, if_pos h1b]
    · rw [rekeyEntry_neg tgt newTgt e h1b]
      have hetemp : e.1 ≠ temp := fun hc => htemp_not (hc ▸ mem_dirNames_of_mem d e he)
      rw [rekeyEntry_neg temp newCur e (by simpa using hetemp)]
      rw [if_neg h0, if_neg h1b]

theorem getD_eq_get (l : List String) (i : Nat) (h : i < l.length) :
    l.getD i "" = l.get ⟨i, h⟩ := by
  rw [List.getD_eq_getElem?_getD, List.getElem?_eq_getElem h]
  rfl

theorem findIdx_get_of_nodup :
    ∀ (l : List String) (i : Nat) (h : i < l.length), l.Nodup →
    l.findIdx (· == l.get ⟨i, h⟩) = i := by
  intro l
  induction l with
  | nil => intro i h; simp at h
  | cons x xs ih =>
    intro i h hnodup
    cases i with
    | zero =>
      rw [List.findIdx_cons]
      rw [show ((x == (x :: xs).get ⟨0, h⟩)) = true from by simp]
      rfl
    | succ j =>
      have hj : j < xs.length := by
        rw [List.length_cons] at h
        omega
      have hget : (x :: xs).get ⟨j + 1, h⟩ = xs.get ⟨j, hj⟩ := rfl
      rw [List.findIdx_cons, hget]
      have hx : (x == xs.get ⟨j, hj⟩) = false := by
        have hxnot : x ∉ xs := (List.nodup_cons.mp hnodup).1
        have : xs.get ⟨j, hj⟩ ∈ xs := List.get_mem xs j hj
        cases hb : (x == xs.get ⟨j, hj⟩)
        · rfl
        · exact absurd ((by simpa using hb : x = xs.get ⟨j, hj⟩) ▸ this) hxnot
      rw [hx]
      show (xs.findIdx (· == xs.get ⟨j, hj⟩)) + 1 = j + 1
      rw [ih j hj (List.nodup_cons.mp hnodup).2]

theorem get_ne_of_nodup (l : List String) (i j : Nat) (hi : i < l.length)
    (hj : j < l.length) (hij : i ≠ j) (hnodup : l.Nodup) :
    l.get ⟨i, hi⟩ ≠ l.get ⟨j, hj⟩ := by
  intro hc
  have := List.nodup_iff_injective_get.mp hnodup hc
  exact hij (by injection this)

theorem string_ne_of_head_ne (a b : String) (ca cb : Char) (ra rb : List Char)
    (ha : a.toList = ca :: ra) (hb : b.toList = cb :: rb) (hne : ca ≠ cb) : a ≠ b := by
  intro hc
  rw [hc, hb] at ha
  injection ha with h1 _
  exact hne h1.symm

theorem temp_toList (nowStamp f : String) :
    ("temp_" ++ nowStamp ++ "_" ++ f).toList =
      't' :: ((("emp_".toList ++ nowStamp.toList) ++ "_".toList) ++ f.toList) := by
  show ((("temp_" ++ nowStamp) ++ "_") ++ f).data = _
  rw [String.data_append, String.data_append, String.data_append]
  rfl

/-- **C3.** For every directory whose ordinal-named entries, sorted by
full name, contain `filename` at index `i > 0`, `moveUpOrDown` with
direction `"up"` swaps exactly the ordinal prefixes of the entry at
index `i` and the entry at index `i - 1` (each entry keeps its own base
name) and leaves every other sibling entry unchanged. Stated under the
data-model invariants: distinct sibling names, distinct ordinal prefixes
among the ordinal-named siblings (spec §3 invariant 1), a fresh
temporary name, and passing access checks. -/
theorem c3_moveUp_swaps_prefixes
    (root treeFolder filename nowStamp tgt : String) (d : Dir) (i : Nat)
    (hfn : filename ≠ "") (htf : treeFolder ≠ "")
    (hchk0 : checkFileAccess (pathJoin root treeFolder) root = true)
    (hnodup : (dirNames d).Nodup)
    (hpfx : ∀ f ∈ (dirNames d).filter isNumberedName,
      ∀ g ∈ (dirNames d).filter isNumberedName,
      strTake f (idxOfUnderscore f + 1) = strTake g (idxOfUnderscore g + 1) → f = g)
    (hi : i < (((dirNames d).filter isNumberedName).insertionSort nameLe).length)
    (hi0 : 0 < i)
    (hcur : (((dirNames d).filter isNumberedName).insertionSort nameLe).getD i "" = filename)
    (htgt : (((dirNames d).filter isNumberedName).insertionSort nameLe).getD (i - 1) "" = tgt)
    (htemp : ("temp_" ++ nowStamp ++ "_" ++ filename) ∉ dirNames d)
    (hchk1 : checkFileAccess (pathJoin (pathJoin root treeFolder) filename) root = true)
    (hchk2 : checkFileAccess (pathJoin (pathJoin root treeFolder) tgt) root = true)
    (hchk3 : checkFileAccess (pathJoin (pathJoin root treeFolder)
      ("temp_" ++ nowStamp ++ "_" ++ filename)) root = true) :
    (moveUpOrDown root treeFolder "up" filename nowStamp d).1 =
      d.map (fun e =>
        if e.1 == filename then
          (strTake tgt (idxOfUnderscore tgt + 1) ++
            strDrop filename (idxOfUnderscore filename + 1), e.2)
        else if e.1 == tgt then
          (strTake filename (idxOfUnderscore filename + 1) ++
            strDrop tgt (idxOfUnderscore tgt + 1), e.2)
        else e) ∧
    (moveUpOrDown root treeFolder "up" filename nowStamp d).2 =
      ⟨200, true, "Files moved successfully", filename,
        strTake tgt (idxOfUnderscore tgt + 1) ++
          strDrop filename (idxOfUnderscore filename + 1),
        tgt,
        strTake filename (idxOfUnderscore filename + 1) ++
          strDrop tgt (idxOfUnderscore tgt + 1)⟩ := by
  have him1 : i - 1 < (((dirNames d).filter isNumberedName).insertionSort nameLe).length := by
    omega
  have hgetcur : (((dirNames d).filter isNumberedName).insertionSort nameLe).get ⟨i, hi⟩ =
      filename := by rw [← getD_eq_get _ i hi]; exact hcur
  have hgettgt : (((dirNames d).filter isNumberedName).insertionSort nameLe).get
      ⟨i - 1, him1⟩ = tgt := by rw [← getD_eq_get _ (i - 1) him1]; exact htgt
  have hsortedNodup : (((dirNames d).filter isNumberedName).insertionSort nameLe).Nodup :=
    ((List.perm_insertionSort nameLe _).nodup_iff).mpr (hnodup.filter _)
  have hct : filename ≠ tgt := by
    rw [← hgetcur, ← hgettgt]
    exact get_ne_of_nodup _ i (i - 1) hi him1 (by omega) hsortedNodup
  have hfindIdx : (((dirNames d).filter isNumberedName).insertionSort nameLe).findIdx
      (· == filename) = i := by
    rw [← hgetcur]
    exact findIdx_get_of_nodup _ i hi hsortedNodup
  have hfn_num : filename ∈ (dirNames d).filter isNumberedName :=
    (List.perm_insertionSort nameLe _).mem_iff.mp (hgetcur ▸ List.get_mem _ i hi)
  have htgt_num : tgt ∈ (dirNames d).filter isNumberedName :=
    (List.perm_insertionSort nameLe _).mem_iff.mp (hgettgt ▸ List.get_mem _ (i - 1) him1)
  have hfn_names : filename ∈ dirNames d := (List.mem_filter.mp hfn_num).1
  have htgt_names : tgt ∈ dirNames d := (List.mem_filter.mp htgt_num).1
  have hfn_isnum : isNumberedName filename = true := (List.mem_filter.mp hfn_num).2
  have htgt_isnum : isNumberedName tgt = true := (List.mem_filter.mp htgt_num).2
  obtain ⟨ds, rest, hds_eq, hds_ne, hds_dig⟩ := isNumberedName_decomp filename hfn_isnum
  obtain ⟨es, rest2, hes_eq, hes_ne, hes_dig⟩ := isNumberedName_decomp tgt htgt_isnum
  have hcurP : strTake filename (idxOfUnderscore filename + 1) = String.mk (ds ++ ['_']) :=
    strTake_pfx filename ds rest hds_eq hds_dig
  have hcurB : strDrop filename (idxOfUnderscore filename + 1) = String.mk rest :=
    strDrop_base filename ds rest hds_eq hds_dig
  have htgtP : strTake tgt (idxOfUnderscore tgt + 1) = String.mk (es ++ ['_']) :=
    strTake_pfx tgt es rest2 hes_eq hes_dig
  have htgtB : strDrop tgt (idxOfUnderscore tgt + 1) = String.mk rest2 :=
    strDrop_base tgt es rest2 hes_eq hes_dig
  have hnewTgt_toList : (strTake filename (idxOfUnderscore filename + 1) ++
      strDrop tgt (idxOfUnderscore tgt + 1)).toList = ds ++ '_' :: rest2 := by
    rw [hcurP, htgtB]
    exact concat_pfx_toList ds (String.mk rest2)
  have hnewCur_toList : (strTake tgt (idxOfUnderscore tgt + 1) ++
      strDrop filename (idxOfUnderscore filename + 1)).toList = es ++ '_' :: rest := by
    rw [htgtP, hcurB]
    exact concat_pfx_toList es (String.mk rest)
  have hpfx_eq_imp : ∀ x ∈ (dirNames d).filter isNumberedName,
      strTake x (idxOfUnderscore x + 1) = String.mk (ds ++ ['_']) → x = filename := by
    intro x hx hxp
    exact hpfx x hx filename hfn_num (by rw [hxp, hcurP])
  have hpfx_eq_imp2 : ∀ x ∈ (dirNames d).filter isNumberedName,
      strTake x (idxOfUnderscore x + 1) = String.mk (es ++ ['_']) → x = tgt := by
    intro x hx hxp
    exact hpfx x hx tgt htgt_num (by rw [hxp, htgtP])
  have htgt_ne_newTgt : tgt ≠ strTake filename (idxOfUnderscore filename + 1) ++
      strDrop tgt (idxOfUnderscore tgt + 1) := by
    intro hc
    have h2 : es ++ '_' :: rest2 = ds ++ '_' :: rest2 := by
      rw [← hes_eq, hc, hnewTgt_toList]
    have h3 := digits_underscore_inj es ds rest2 rest2 hes_dig hds_dig h2
    exact hct (hpfx_eq_imp tgt htgt_num (by rw [htgtP, h3.1])).symm
  have hnewTgt_not : ∀ x ∈ dirNames d, x ≠ filename →
      x ≠ strTake filename (idxOfUnderscore filename + 1) ++
        strDrop tgt (idxOfUnderscore tgt + 1) := by
    intro x hx hxne hc
    have hxnum : isNumberedName x = true := by
      rw [hc, hcurP, htgtB]
      exact concat_pfx_numbered ds (String.mk rest2) hds_ne hds_dig
    have hxfilter : x ∈ (dirNames d).filter isNumberedName :=
      List.mem_filter.mpr ⟨hx, hxnum⟩
    have hxp : strTake x (idxOfUnderscore x + 1) = String.mk (ds ++ ['_']) := by
      rw [hc, hcurP, htgtB]
      exact concat_pfx_strTake ds (String.mk rest2) hds_dig
    exact hxne (hpfx_eq_imp x hxfilter hxp)
  have hnewCur_not : ∀ x ∈ dirNames d, x ≠ tgt →
      x ≠ strTake tgt (idxOfUnderscore tgt + 1) ++
        strDrop filename (idxOfUnderscore filename + 1) := by
    intro x hx hxne hc
    have hxnum : isNumberedName x = true := by
      rw [hc, htgtP, hcurB]
      exact concat_pfx_numbered es (String.mk rest) hes_ne hes_dig
    have hxfilter : x ∈ (dirNames d).filter isNumberedName :=
      List.mem_filter.mpr ⟨hx, hxnum⟩
    have hxp : strTake x (idxOfUnderscore x + 1) = String.mk (es ++ ['_']) := by
      rw [hc, htgtP, hcurB]
      exact concat_pfx_strTake es (String.mk rest) hes_dig
    exact hxne (hpfx_eq_imp2 x hxfilter hxp)
  obtain ⟨dc, ds', rfl⟩ : ∃ dc ds', ds = dc :: ds' := by
    cases ds with
    | nil => exact absurd rfl hds_ne
    | cons dc ds' => exact ⟨dc, ds', rfl⟩
  obtain ⟨ec, es', rfl⟩ : ∃ ec es', es = ec :: es' := by
    cases es with
    | nil => exact absurd rfl hes_ne
    | cons ec es' => exact ⟨ec, es', rfl⟩
  have htemp_ne_newTgt : ("temp_" ++ nowStamp ++ "_" ++ filename) ≠
      strTake filename (idxOfUnderscore filename + 1) ++
        strDrop tgt (idxOfUnderscore tgt + 1) :=
    string_ne_of_head_ne _ _ 't' dc _ _ (temp_toList nowStamp filename)
      (by rw [hnewTgt_toList]; rfl)
      (digit_ne_t dc (hds_dig dc (List.mem_cons_self _ _))).symm
  have htemp_ne_newCur : ("temp_" ++ nowStamp ++ "_" ++ filename) ≠
      strTake tgt (idxOfUnderscore tgt + 1) ++
        strDrop filename (idxOfUnderscore filename + 1) :=
    string_ne_of_head_ne _ _ 't' ec _ _ (temp_toList nowStamp filename)
      (by rw [hnewCur_toList]; rfl)
      (digit_ne_t ec (hes_dig ec (List.mem_cons_self _ _))).symm
  have hnewCur_ne_newTgt : (strTake tgt (idxOfUnderscore tgt + 1) ++
      strDrop filename (idxOfUnderscore filename + 1)) ≠
      (strTake filename (idxOfUnderscore filename + 1) ++
        strDrop tgt (idxOfUnderscore tgt + 1)) := by
    intro hc
    have h2 : (ec :: es') ++ '_' :: rest = (dc :: ds') ++ '_' :: rest2 := by
      rw [← hnewCur_toList, hc, hnewTgt_toList]
    have h3 := digits_underscore_inj _ _ _ _ hes_dig hds_dig h2
    exact hct (hpfx_eq_imp tgt htgt_num (by rw [htgtP, h3.1])).symm
  have hmainstep : moveUpOrDown root treeFolder "up" filename nowStamp d =
      swapCore (pathJoin root treeFolder) root nowStamp d filename tgt := by
    simp only [moveUpOrDown]
    rw [if_neg (by simp [hfn, htf])]
    rw [hchk0]
    simp only [Bool.not_true]
    rw [if_neg (show ¬(false = true) from by simp)]
    rw [hfindIdx]
    rw [if_neg (show ¬(i = (((dirNames d).filter isNumberedName).insertionSort nameLe).length)
      from by omega)]
    rw [if_neg (show ¬(i = 0) from by omega)]
    rw [hcur, htgt]
    rw [if_pos trivial]
  have hswap : swapCore (pathJoin root treeFolder) root nowStamp d filename tgt =
      (d.map (fun e =>
        if e.1 == filename then
          (strTake tgt (idxOfUnderscore tgt + 1) ++
            strDrop filename (idxOfUnderscore filename + 1), e.2)
        else if e.1 == tgt then
          (strTake filename (idxOfUnderscore filename + 1) ++
            strDrop tgt (idxOfUnderscore tgt + 1), e.2)
        else e),
      ⟨200, true, "Files moved successfully", filename,
        strTake tgt (idxOfUnderscore tgt + 1) ++
          strDrop filename (idxOfUnderscore filename + 1),
        tgt,
        strTake filename (idxOfUnderscore filename + 1) ++
          strDrop tgt (idxOfUnderscore tgt + 1)⟩) := by
    simp only [swapCore]
    rw [hchk1, hchk2, hchk3]
    simp only [Bool.not_true, Bool.or_self]
    rw [if_neg (show ¬(false = true) from by simp)]
    rw [swap_renames_eq_map d filename tgt _ _ _ hfn_names htgt_names htemp
      htgt_ne_newTgt hnewTgt_not htemp_ne_newTgt hnewCur_not htemp_ne_newCur
      hnewCur_ne_newTgt]
  rw [hmainstep, hswap]
  exact ⟨rfl, rfl⟩

/-- Witness for C3: moving `0002_b.md` up in a three-entry directory
swaps its prefix with `0001_a.md` and leaves `0003_c.md` alone. -/
theorem c3_witness :
    ((((dirNames [("0001_a.md", "A"), ("0002_b.md", "B"), ("0003_c.md", "C")]).filter
        isNumberedName).insertionSort nameLe).getD 1 "" = "0002_b.md" ∧
      (((dirNames [("0001_a.md", "A"), ("0002_b.md", "B"), ("0003_c.md", "C")]).filter
        isNumberedName).insertionSort nameLe).getD 0 "" = "0001_a.md") ∧
    (moveUpOrDown "/r" "/d" "up" "0002_b.md" "123"
        [("0001_a.md", "A"), ("0002_b.md", "B"), ("0003_c.md", "C")]).1 =
      [("0002_a.md", "A"), ("0001_b.md", "B"), ("0003_c.md", "C")] ∧
    (moveUpOrDown "/r" "/d" "up" "0002_b.md" "123"
        [("0001_a.md", "A"), ("0002_b.md", "B"), ("0003_c.md", "C")]).2.success = true :=
  have h := c3_moveUp_swaps_prefixes "/r" "/d" "0002_b.md" "123" "0001_a.md"
    [("0001_a.md", "A"), ("0002_b.md", "B"), ("0003_c.md", "C")] 1
    (by decide) (by decide) (by decide) (by decide) (by decide) (by decide) (by decide)
    (by decide) (by decide) (by decide) (by decide) (by decide) (by decide)
  ⟨⟨by decide, by decide⟩, h.1.trans (by decide), by rw [h.2]⟩

/-! ## Flat filesystem model for pasteItems (DocMod.ts lines 567-775)

`pasteItems` moves entries across directories, so its model keys entries
by absolute path. Renames carry an event trace recording every
`checkFileAccess` call and every `fs.renameSync` call, in order. -/

/-- A filesystem entry: a file with its content, or a directory. -/
inductive FSEntry
  | file (content : String)
  | dir
deriving Repr, DecidableEq

/-- A flat filesystem: absolute path ↦ entry. -/
abbrev FS := List (String × FSEntry)

/-- The recorded effects: access checks (with their outcome) and renames. -/
inductive FSEvent
  | check (path : String) (ok : Bool)
  | rename (src dst : String)
deriving Repr, DecidableEq

def fsPaths (fs : FS) : List String := fs.map (·.1)

/-- Model of `fs.existsSync`. -/
def fsHas (fs : FS) (p : String) : Bool := fs.any (fun e => e.1 == p)

def fsLookup (fs : FS) (p : String) : Option FSEntry :=
  (fs.find? (fun e => e.1 == p)).map (·.2)

/-- Is `q` equal to `p` or a path beneath `p`? -/
def isUnder (p q : String) : Bool := q == p || startsWithCL q.toList (p ++ "/").toList

/-- Model of `fs.renameSync` on the flat filesystem: the destination (and
anything beneath it) is replaced; the source and everything beneath it is
rekeyed under the destination. Renaming a path to itself is a no-op. -/
def renameFS (fs : FS) (src dst : String) : FS :=
  if src = dst then fs
  else (fs.filter (fun e => !(isUnder dst e.1))).map
    (fun e => if isUnder src e.1 then (dst ++ strDrop e.1 src.toList.length, e.2) else e)

/-- The direct child names of a directory path (model of `readdirSync`). -/
def childNamesFS (fs : FS) (parent : String) : List String :=
  (fs.map (·.1)).filterMap (fun p =>
    if startsWithCL p.toList (parent ++ "/").toList then
      let rest := strDrop p (parent ++ "/").toList.length
      if rest.toList.contains '/' || rest == "" then none else some rest
    else none)

/-- The insert-ordinal computation of `pasteItems` (lines 598-610):
`targetOrdinal + 1` when `targetOrdinal` is a name with a parsable
ordinal prefix, else 0 (a missing, empty, or unparsable value falls
through the `!insertOrdinal` default). -/
def insertOrdinalOf (targetOrdinal : Option String) : Nat :=
  match targetOrdinal with
  | some t =>
    if t = "" then 0
    else
      let ui := idxOfUnderscore t
      if 0 < ui ∧ ui < t.toList.length then
        match parseIntDigits (strTake t ui) with
        | some k => k + 1
        | none => 0
      else 0
  | none => 0

/-- `path.dirname` normalized as at lines 621-623: `"."` becomes `""`. -/
def normDirStr (p : String) : String :=
  let dn := dirname p
  if dn = "." then "" else dn

/-- The name with its ordinal prefix stripped (lines 737-738):
everything after the first `_` when one exists, else the whole name. -/
def nameWithoutPfx (itemName : String) : String :=
  if itemName.toList.contains '_' then strDrop itemName (idxOfUnderscore itemName + 1)
  else itemName

/-- A pending same-folder move (lines 654-658). -/
structure TempMove where
  tempPath : String
  originalPath : String
  finalName : String
deriving Repr, DecidableEq

/-- The same-folder temp-move loop (lines 629-661): each item already in
the target folder is renamed — without any access check — to a unique
temporary name, and its final ordinal name is recorded. -/
def buildTempMoves (root absoluteTargetPath targetFolderNormalized now : String)
    (insertOrdinal : Nat) :
    Nat → List String → FS → List FSEvent → FS × List FSEvent × List TempMove
  | _, [], fs, tr => (fs, tr, [])
  | i, item :: rest, fs, tr =>
    if normDirStr item == targetFolderNormalized then
      let itemName := basename item
      let sourceFilePath := pathJoin root item
      if fsHas fs sourceFilePath then
        let tempName := "temp_paste_" ++ now ++ "_" ++ natToString i ++ "_" ++ itemName
        let tempPath := pathJoin absoluteTargetPath tempName
        let fs2 := renameFS fs sourceFilePath tempPath
        let tr2 := tr ++ [FSEvent.rename sourceFilePath tempPath]
        let finalName := mkOrdinalName (insertOrdinal + i) (nameWithoutPfx itemName)
        let res := buildTempMoves root absoluteTargetPath targetFolderNormalized now
          insertOrdinal (i + 1) rest fs2 tr2
        (res.1, res.2.1, ⟨tempPath, sourceFilePath, finalName⟩ :: res.2.2)
      else
        buildTempMoves root absoluteTargetPath targetFolderNormalized now
          insertOrdinal (i + 1) rest fs tr
    else
      buildTempMoves root absoluteTargetPath targetFolderNormalized now
        insertOrdinal (i + 1) rest fs tr

/-- Strip the `root ++ "/"` prefix, producing the root-relative path used
in the shift mapping. -/
def stripRootRel (root p : String) : String :=
  if startsWithCL p.toList (root ++ "/").toList then
    strDrop p (root ++ "/").toList.length
  else p

/-- Modelled from the spec: the per-name loop of
`DocUtil.shiftOrdinalsDown` on the flat filesystem — each ordinal sibling
is access-checked (a failure throws, aborting the loop with the state so
far) and renamed ordinal → ordinal + n; renamed directories are recorded
in the old-path → new-path mapping (root-relative). -/
def shiftGo (n : Nat) (dirPath root : String) :
    List String → FS → List FSEvent → List (String × String) →
    FS × List FSEvent × List (String × String) × Bool
  | [], fs, tr, mp => (fs, tr, mp, false)
  | name :: rest, fs, tr, mp =>
    let oldPath := pathJoin dirPath name
    let newName := mkOrdinalName (getOrdinalFromName name + n) (baseAfterUnderscore name)
    let newPath := pathJoin dirPath newName
    let ok1 := checkFileAccess oldPath root
    let ok2 := checkFileAccess newPath root
    let tr1 := tr ++ [FSEvent.check oldPath ok1, FSEvent.check newPath ok2]
    if ok1 && ok2 then
      let isDir := fsLookup fs oldPath == some FSEntry.dir
      let fs2 := renameFS fs oldPath newPath
      let tr2 := tr1 ++ [FSEvent.rename oldPath newPath]
      let mp2 := if isDir then mp ++ [(stripRootRel root oldPath, stripRootRel root newPath)]
        else mp
      shiftGo n dirPath root rest fs2 tr2 mp2
    else (fs, tr1, mp, true)

/-- Modelled from the spec: `DocUtil.shiftOrdinalsDown(n, dir,
fromOrdinal, root, ignoreList)` — enumerate the ordinal-named children of
`dir` with ordinal ≥ `fromOrdinal` (skipping the ignore list), process
them in descending ordinal order, renaming ordinal → ordinal + n, and
return the old→new mapping for every renamed directory. -/
def shiftOrdinalsDownFS (n : Nat) (dirPath : String) (fromOrdinal : Nat) (root : String)
    (ignoreList : Option (List String)) (fs : FS) (tr : List FSEvent) :
    FS × List FSEvent × List (String × String) × Bool :=
  let names := (childNamesFS fs dirPath).filter (fun name =>
    match parseOrdinal name with
    | some k => decide (fromOrdinal ≤ k) && !((ignoreList.getD []).contains name)
    | none => false)
  let sorted := names.insertionSort (fun a b => getOrdinalFromName b ≤ getOrdinalFromName a)
  shiftGo n dirPath root sorted fs tr []

/-- The path-remap step (lines 670-700): if a pasted item's path passes
through a renumbered folder, rewrite it through the first matching entry
of the mapping. -/
def remapItem (pathMapping : List (String × String)) (originalPath : String) : String :=
  let hasSlash := startsWithCL originalPath.toList ['/']
  let normalized := if hasSlash then strDrop originalPath 1 else originalPath
  match pathMapping.find? (fun m =>
      startsWithCL normalized.toList (m.1 ++ "/").toList || normalized == m.1) with
  | some m =>
    let relativePart := strDrop normalized m.1.toList.length
    let newNorm := m.2 ++ relativePart
    if hasSlash then "/" ++ newNorm else newNorm
  | none => originalPath

/-- The per-item move loop (lines 703-762): same-folder items are moved
from their temp location to their final name; cross-folder items are
moved from their (possibly remapped) source path into the target folder
under `insertOrdinal + i` — in both cases the `renameSync` is performed
without any access check on the involved paths. -/
def moveLoop (root absoluteTargetPath targetFolderNormalized : String)
    (insertOrdinal : Nat) (tempMoves : List TempMove) :
    Nat → List String → FS → List FSEvent → Nat → List String →
    FS × List FSEvent × Nat × List String
  | _, [], fs, tr, cnt, errs => (fs, tr, cnt, errs)
  | i, item :: rest, fs, tr, cnt, errs =>
    let isFromSameFolder := normDirStr item == targetFolderNormalized
    if isFromSameFolder && !tempMoves.isEmpty then
      match tempMoves.find? (fun tm => basename tm.originalPath == basename item) with
      | some tm =>
        let finalFilePath := pathJoin absoluteTargetPath tm.finalName
        let fs2 := renameFS fs tm.tempPath finalFilePath
        let tr2 := tr ++ [FSEvent.rename tm.tempPath finalFilePath]
        moveLoop root absoluteTargetPath targetFolderNormalized insertOrdinal tempMoves
          (i + 1) rest fs2 tr2 (cnt + 1) errs
      | none =>
        moveLoop root absoluteTargetPath targetFolderNormalized insertOrdinal tempMoves
          (i + 1) rest fs tr cnt (errs ++ ["Temporary file not found for " ++ item])
    else
      let itemName := basename item
      let sourceFilePath := pathJoin root item
      if !(fsHas fs sourceFilePath) then
        moveLoop root absoluteTargetPath targetFolderNormalized insertOrdinal tempMoves
          (i + 1) rest fs tr cnt (errs ++ ["Source file not found: " ++ item])
      else
        let targetFileName := mkOrdinalName (insertOrdinal + i) (nameWithoutPfx itemName)
        let targetFilePath := pathJoin absoluteTargetPath targetFileName
        if fsHas fs targetFilePath then
          moveLoop root absoluteTargetPath targetFolderNormalized insertOrdinal tempMoves
            (i + 1) rest fs tr cnt (errs ++ ["Target file already exists: " ++ targetFileName])
        else
          let fs2 := renameFS fs sourceFilePath targetFilePath
          let tr2 := tr ++ [FSEvent.rename sourceFilePath targetFilePath]
          moveLoop root absoluteTargetPath targetFolderNormalized insertOrdinal tempMoves
            (i + 1) rest fs2 tr2 (cnt + 1) errs

/-- The outcome of a paste call: final filesystem, event trace, and the
response fields. -/
structure PasteOutcome where
  fs : FS
  trace : List FSEvent
  status : Nat
  success : Bool
  pastedCount : Nat
  errors : List String
deriving Repr, DecidableEq

/-- The body of `pasteItems` after the initial in-place sort: validation,
target check, insert ordinal, same-folder temp moves, the ordinal shift,
the path remap, and the move loop (lines 574-771). -/
def pasteItemsCore (root targetFolder : String) (items : List String)
    (targetOrdinal : Option String) (now : String) (fs : FS) : PasteOutcome :=
  if targetFolder = "" ∨ items.isEmpty then ⟨fs, [], 400, false, 0, []⟩
  else
    let absoluteTargetPath := pathJoin root targetFolder
    let ok0 := checkFileAccess absoluteTargetPath root
    let tr0 := [FSEvent.check absoluteTargetPath ok0]
    if !ok0 then ⟨fs, tr0, 500, false, 0, []⟩
    else if !(fsHas fs absoluteTargetPath) then ⟨fs, tr0, 404, false, 0, []⟩
    else
      let insertOrdinal := insertOrdinalOf targetOrdinal
      let targetFolderNormalized := if targetFolder = "/" then "" else targetFolder
      let isSameFolderOperation :=
        items.any (fun p => normDirStr p == targetFolderNormalized)
      let step1 :=
        if isSameFolderOperation then
          buildTempMoves root absoluteTargetPath targetFolderNormalized now
            insertOrdinal 0 items fs tr0
        else (fs, tr0, [])
      let step2 := shiftOrdinalsDownFS items.length absoluteTargetPath insertOrdinal root
        none step1.1 step1.2.1
      if step2.2.2.2 then ⟨step2.1, step2.2.1, 500, false, 0, []⟩
      else
        let items2 := items.map (remapItem step2.2.2.1)
        let res := moveLoop root absoluteTargetPath targetFolderNormalized insertOrdinal
          step1.2.2 0 items2 step2.1 step2.2.1 0 []
        ⟨res.1, res.2.1, 200, decide (0 < res.2.2.1), res.2.2.1, res.2.2.2⟩

/-- Model of `DocMod.pasteItems` (lines 567-775): the caller-supplied
array is sorted in place with `localeCompare` (line 572) before any
other processing. -/
def pasteItemsOp (root targetFolder : String) (items0 : List String)
    (targetOrdinal : Option String) (now : String) (fs : FS) : PasteOutcome :=
  pasteItemsCore root targetFolder (items0.insertionSort nameLe) targetOrdinal now fs

/-- **C1** (refuted — code bug). The claim says every filesystem rename
whose path contains a caller-supplied component is preceded by an access
check on that path, in particular for the pasteItems source renames. The
run below pastes the caller-supplied source `"../secrets/0001_key.md"`,
which resolves outside the root (its access check would return `false`),
yet the operation performs the rename with the only check in the whole
trace being on the target folder — the out-of-root file is moved and the
call reports success. The second run shows the same-folder temp rename is
equally unchecked: both renames of `/dest/0001_a.md` happen with no
check on either path. -/
theorem c1_pasteItems_unchecked_rename :
    (pasteItemsOp "/data" "/dest" ["../secrets/0001_key.md"] none "7"
      [("/data", FSEntry.dir), ("/data/dest", FSEntry.dir), ("/secrets", FSEntry.dir),
        ("/secrets/0001_key.md", FSEntry.file "KEY")]).trace =
      [FSEvent.check "/data/dest" true,
        FSEvent.rename "/secrets/0001_key.md" "/data/dest/0000_key.md"] ∧
    checkFileAccess "/secrets/0001_key.md" "/data" = false ∧
    (pasteItemsOp "/data" "/dest" ["../secrets/0001_key.md"] none "7"
      [("/data", FSEntry.dir), ("/data/dest", FSEntry.dir), ("/secrets", FSEntry.dir),
        ("/secrets/0001_key.md", FSEntry.file "KEY")]).success = true ∧
    fsLookup (pasteItemsOp "/data" "/dest" ["../secrets/0001_key.md"] none "7"
      [("/data", FSEntry.dir), ("/data/dest", FSEntry.dir), ("/secrets", FSEntry.dir),
        ("/secrets/0001_key.md", FSEntry.file "KEY")]).fs "/data/dest/0000_key.md" =
      some (FSEntry.file "KEY") ∧
    (pasteItemsOp "/data" "/dest" ["/dest/0001_a.md"] none "7"
      [("/data", FSEntry.dir), ("/data/dest", FSEntry.dir),
        ("/data/dest/0001_a.md", FSEntry.file "A")]).trace =
      [FSEvent.check "/data/dest" true,
        FSEvent.rename "/data/dest/0001_a.md" "/data/dest/temp_paste_7_0_0001_a.md",
        FSEvent.rename "/data/dest/temp_paste_7_0_0001_a.md" "/data/dest/0000_a.md"] := by
  refine ⟨by decide, by decide, by decide, by decide, by decide⟩

theorem charListLe_nil (b : List Char) : charListLe [] b = true := rfl

theorem charListLe_cons (x y : Char) (xs ys : List Char) :
    charListLe (x :: xs) (y :: ys) =
      if x = y then charListLe xs ys else decide (x < y) := rfl

theorem charListLe_total : ∀ (a b : List Char), (charListLe a b || charListLe b a) = true := by
  intro a
  induction a with
  | nil => intro b; rw [charListLe_nil, Bool.true_or]
  | cons x xs ih =>
    intro b
    cases b with
    | nil => rw [charListLe_nil, Bool.or_true]
    | cons y ys =>
      rw [charListLe_cons, charListLe_cons]
      by_cases hxy : x = y
      · rw [if_pos hxy, if_pos hxy.symm]
        subst hxy
        exact ih ys
      · rw [if_neg hxy, if_neg (fun hc => hxy hc.symm)]
        rcases lt_or_gt_of_ne hxy with hlt | hgt
        · rw [decide_eq_true_eq.mpr hlt, Bool.true_or]
        · rw [show decide (y < x) = true from decide_eq_true_eq.mpr hgt, Bool.or_true]

theorem charListLe_antisymm : ∀ (a b : List Char),
    charListLe a b = true → charListLe b a = true → a = b := by
  intro a
  induction a with
  | nil =>
    intro b _ h2
    cases b with
    | nil => rfl
    | cons y ys => exact absurd h2 (by rw [show charListLe (y :: ys) [] = false from rfl]; simp)
  | cons x xs ih =>
    intro b h1 h2
    cases b with
    | nil => exact absurd h1 (by rw [show charListLe (x :: xs) [] = false from rfl]; simp)
    | cons y ys =>
      rw [charListLe_cons] at h1 h2
      by_cases hxy : x = y
      · rw [if_pos hxy] at h1
        rw [if_pos hxy.symm] at h2
        subst hxy
        rw [ih ys h1 h2]
      · rw [if_neg hxy] at h1
        rw [if_neg (fun hc => hxy hc.symm)] at h2
        exact absurd (decide_eq_true_eq.mp h2) (lt_asymm (decide_eq_true_eq.mp h1))

theorem charListLe_trans : ∀ (a b c : List Char),
    charListLe a b = true → charListLe b c = true → charListLe a c = true := by
  intro a
  induction a with
  | nil => intro b c _ _; rw [charListLe_nil]
  | cons x xs ih =>
    intro b c h1 h2
    cases b with
    | nil => exact absurd h1 (by rw [show charListLe (x :: xs) [] = false from rfl]; simp)
    | cons y ys =>
      cases c with
      | nil => exact absurd h2 (by rw [show charListLe (y :: ys) [] = false from rfl]; simp)
      | cons z zs =>
        rw [charListLe_cons] at h1 h2 ⊢
        by_cases hxy : x = y
        · rw [if_pos hxy] at h1
          by_cases hyz : y = z
          · rw [if_pos hyz] at h2
            rw [if_pos (hxy.trans hyz)]
            exact ih ys zs h1 h2
          · rw [if_neg hyz] at h2
            subst hxy
            rw [if_neg hyz]
            exact h2
        · rw [if_neg hxy] at h1
          by_cases hyz : y = z
          · subst hyz
            rw [if_neg hxy]
            exact h1
          · rw [if_neg hyz] at h2
            have hlt := lt_trans (decide_eq_true_eq.mp h1) (decide_eq_true_eq.mp h2)
            rw [if_neg (ne_of_lt hlt)]
            exact decide_eq_true_eq.mpr hlt

instance : IsTotal String nameLe :=
  ⟨fun a b => by
    rcases Bool.or_eq_true_iff.mp (charListLe_total a.toList b.toList) with h | h
    · exact Or.inl h
    · exact Or.inr h⟩

instance : IsTrans String nameLe :=
  ⟨fun a b c h1 h2 => charListLe_trans a.toList b.toList c.toList h1 h2⟩

instance : IsAntisymm String nameLe :=
  ⟨fun a b h1 h2 => by
    have := charListLe_antisymm a.toList b.toList h1 h2
    cases a with
    | mk da =>
      cases b with
      | mk db => exact congrArg String.mk this⟩

theorem insertionSort_nameLe_eq_of_perm (l₁ l₂ : List String) (h : l₁.Perm l₂) :
    l₁.insertionSort nameLe = l₂.insertionSort nameLe :=
  List.eq_of_perm_of_sorted
    ((List.perm_insertionSort _ _).trans (h.trans (List.perm_insertionSort _ _).symm))
    (List.sorted_insertionSort _ _) (List.sorted_insertionSort _ _)

/-- **C10.** `pasteItems` lexicographically sorts the caller-supplied
source-path array before any processing, so the whole outcome — final
filesystem, trace, counts — equals the outcome on the pre-sorted array,
and is invariant under any permutation of the input array. -/
theorem c10_pasteItems_perm_invariant (root targetFolder : String)
    (items₁ items₂ : List String) (targetOrdinal : Option String) (now : String)
    (fs : FS) (h : items₁.Perm items₂) :
    pasteItemsOp root targetFolder items₁ targetOrdinal now fs =
      pasteItemsOp root targetFolder items₂ targetOrdinal now fs ∧
    pasteItemsOp root targetFolder items₁ targetOrdinal now fs =
      pasteItemsOp root targetFolder (items₁.insertionSort nameLe) targetOrdinal now fs := by
  constructor
  · rw [pasteItemsOp, pasteItemsOp, insertionSort_nameLe_eq_of_perm items₁ items₂ h]
  · rw [pasteItemsOp, pasteItemsOp,
      insertionSort_nameLe_eq_of_perm (items₁.insertionSort nameLe) items₁
        (List.perm_insertionSort _ _)]

/-- Witness for C10: two orderings of the same two-item paste produce
identical outcomes. -/
theorem c10_witness :
    (["/b/0002_y.md", "/b/0001_x.md"] : List String).Perm
      ["/b/0001_x.md", "/b/0002_y.md"] ∧
    (pasteItemsOp "/r" "/t" ["/b/0002_y.md", "/b/0001_x.md"] none "9"
        [("/r", FSEntry.dir), ("/r/t", FSEntry.dir), ("/r/b", FSEntry.dir),
          ("/r/b/0001_x.md", FSEntry.file "X"), ("/r/b/0002_y.md", FSEntry.file "Y")] =
      pasteItemsOp "/r" "/t" ["/b/0001_x.md", "/b/0002_y.md"] none "9"
        [("/r", FSEntry.dir), ("/r/t", FSEntry.dir), ("/r/b", FSEntry.dir),
          ("/r/b/0001_x.md", FSEntry.file "X"), ("/r/b/0002_y.md", FSEntry.file "Y")] ∧
      pasteItemsOp "/r" "/t" ["/b/0002_y.md", "/b/0001_x.md"] none "9"
        [("/r", FSEntry.dir), ("/r/t", FSEntry.dir), ("/r/b", FSEntry.dir),
          ("/r/b/0001_x.md", FSEntry.file "X"), ("/r/b/0002_y.md", FSEntry.file "Y")] =
      pasteItemsOp "/r" "/t"
        ((["/b/0002_y.md", "/b/0001_x.md"] : List String).insertionSort nameLe) none "9"
        [("/r", FSEntry.dir), ("/r/t", FSEntry.dir), ("/r/b", FSEntry.dir),
          ("/r/b/0001_x.md", FSEntry.file "X"), ("/r/b/0002_y.md", FSEntry.file "Y")]) :=
  ⟨by decide,
    c10_pasteItems_perm_invariant "/r" "/t" ["/b/0002_y.md", "/b/0001_x.md"]
      ["/b/0001_x.md", "/b/0002_y.md"] none "9"
      [("/r", FSEntry.dir), ("/r/t", FSEntry.dir), ("/r/b", FSEntry.dir),
        ("/r/b/0001_x.md", FSEntry.file "X"), ("/r/b/0002_y.md", FSEntry.file "Y")]
      (by decide)⟩

theorem startsWithCL_iff : ∀ (l p : List Char), startsWithCL l p = true ↔ p <+: l := by
  intro l
  induction l with
  | nil =>
    intro p
    cases p with
    | nil => simp [startsWithCL]
    | cons c cs =>
      constructor
      · intro h; exact absurd h (by rw [show startsWithCL [] (c :: cs) = false from rfl]; simp)
      · intro h; exact absurd (List.IsPrefix.length_le h) (by simp)
  | cons a as ih =>
    intro p
    cases p with
    | nil => simp [startsWithCL]
    | cons b bs =>
      show (decide (a = b) && startsWithCL as bs) = true ↔ _
      rw [Bool.and_eq_true, decide_eq_true_eq]
      constructor
      · rintro ⟨rfl, h⟩
        obtain ⟨t, ht⟩ := (ih bs).mp h
        exact ⟨t, by rw [List.cons_append, ht]⟩
      · intro h
        rcases h with ⟨t, ht⟩
        injection ht with h1 h2
        exact ⟨h1.symm, (ih bs).mpr ⟨t, h2⟩⟩

theorem strAppend_toList (a b : String) : (a ++ b).toList = a.toList ++ b.toList :=
  String.data_append a b

theorem strAppend_assoc (a b c : String) : (a ++ b) ++ c = a ++ (b ++ c) := by
  cases a with
  | mk da =>
    cases b with
    | mk db =>
      cases c with
      | mk dc =>
        have h : ((String.mk da ++ String.mk db) ++ String.mk dc).data =
            (String.mk da ++ (String.mk db ++ String.mk dc)).data := by
          rw [String.data_append, String.data_append, String.data_append, String.data_append]
          exact List.append_assoc _ _ _
        cases hq : (String.mk da ++ String.mk db) ++ String.mk dc with
        | mk d1 =>
          cases hw : String.mk da ++ (String.mk db ++ String.mk dc) with
          | mk d2 =>
            rw [hq, hw] at h
            exact congrArg String.mk h

theorem strAppend_empty (s : String) : s ++ "" = s := by
  cases s with
  | mk ds =>
    have h : (String.mk ds ++ "").data = ds := by
      rw [String.data_append]
      exact List.append_nil ds
    cases hq : String.mk ds ++ "" with
    | mk d1 =>
      rw [hq] at h
      exact congrArg String.mk h

theorem string_eq_of_data (a b : String) (h : a.data = b.data) : a = b := by
  cases a with
  | mk da =>
    cases b with
    | mk db => exact congrArg String.mk h

/-- **C4 part 1-2 helper**: a provided `targetOrdinal` with a parsable
prefix yields `ordinal + 1`. -/
theorem insertOrdinalOf_some (t : String) (m : Nat) (ht : t ≠ "")
    (hp : parseOrdinal t = some m) : insertOrdinalOf (some t) = m + 1 := by
  rw [insertOrdinalOf]
  rw [if_neg ht]
  rw [parseOrdinal] at hp
  by_cases hg : 0 < idxOfUnderscore t ∧ idxOfUnderscore t < t.toList.length
  · rw [if_pos hg]
    rw [if_pos hg] at hp
    rw [show strTake t (idxOfUnderscore t) = String.mk (t.toList.take (idxOfUnderscore t)) from rfl]
    rw [hp]
  · rw [if_neg hg] at hp
    exact absurd hp (by simp)

theorem splitSlash_cons (c : Char) (rest acc : List Char) :
    splitSlash (c :: rest) acc =
      if c = '/' then acc.reverse :: splitSlash rest []
      else splitSlash rest (c :: acc) := rfl

theorem splitSlash_append (l₁ l₂ : List Char) : ∀ acc,
    splitSlash (l₁ ++ '/' :: l₂) acc = splitSlash l₁ acc ++ splitSlash l₂ [] := by
  induction l₁ with
  | nil =>
    intro acc
    rw [List.nil_append, splitSlash_cons, if_pos rfl]
    rfl
  | cons c cs ih =>
    intro acc
    rw [List.cons_append, splitSlash_cons, splitSlash_cons]
    by_cases hc : c = '/'
    · rw [if_pos hc, if_pos hc, ih]
      rfl
    · rw [if_neg hc, if_neg hc, ih]

theorem splitSlash_no_slash (l : List Char) (h : ∀ c ∈ l, c ≠ '/') : ∀ acc,
    splitSlash l acc = [acc.reverse ++ l] := by
  induction l with
  | nil => intro acc; simp [splitSlash]
  | cons c cs ih =>
    intro acc
    rw [splitSlash_cons, if_neg (h c (List.mem_cons_self c cs))]
    rw [ih (fun x hx => h x (List.mem_cons_of_mem c hx))]
    simp

theorem normSegs_nil (acc : List String) : normSegs acc [] = acc.reverse := rfl

theorem normSegs_cons (acc : List String) (s : String) (rest : List String) :
    normSegs acc (s :: rest) =
      if s = "" ∨ s = "." then normSegs acc rest
      else if s = ".." then normSegs (acc.drop 1) rest
      else normSegs (s :: acc) rest := rfl

theorem normSegs_append_plain (n : String) (hn1 : n ≠ "") (hn2 : n ≠ ".") (hn3 : n ≠ "..") :
    ∀ (xs : List String) (acc : List String),
    normSegs acc (xs ++ [n]) = normSegs acc xs ++ [n] := by
  intro xs
  induction xs with
  | nil =>
    intro acc
    rw [List.nil_append, normSegs_cons]
    rw [if_neg (by push_neg; exact ⟨hn1, hn2⟩), if_neg hn3]
    rw [normSegs_nil, normSegs_nil]
    exact List.reverse_cons n acc
  | cons s rest ih =>
    intro acc
    rw [List.cons_append, normSegs_cons, normSegs_cons]
    by_cases h1 : s = "" ∨ s = "."
    · rw [if_pos h1, if_pos h1, ih]
    · rw [if_neg h1, if_neg h1]
      by_cases h2 : s = ".."
      · rw [if_pos h2, if_pos h2, ih]
      · rw [if_neg h2, if_neg h2, ih]

theorem joinSegs_append_single (n : String) :
    ∀ (xs : List String), xs ≠ [] → joinSegs (xs ++ [n]) = joinSegs xs ++ "/" ++ n := by
  intro xs
  induction xs with
  | nil => intro h; exact absurd rfl h
  | cons s rest ih =>
    intro _
    cases rest with
    | nil => rfl
    | cons r rs =>
      show joinSegs (s :: (r :: rs) ++ [n]) = (s ++ "/" ++ joinSegs (r :: rs)) ++ "/" ++ n
      rw [show joinSegs (s :: (r :: rs) ++ [n]) =
        s ++ "/" ++ joinSegs ((r :: rs) ++ [n]) from rfl]
      rw [ih (by simp)]
      rw [strAppend_assoc (s ++ "/") (joinSegs (r :: rs)) "/",
        strAppend_assoc (s ++ "/") (joinSegs (r :: rs) ++ "/") n]

/-- A plain path segment: non-empty, no slash, not a dot directory. -/
def plainSeg (s : String) : Bool :=
  !(s == "") && !(s.toList.contains '/') && !(s == ".") && !(s == "..")

theorem plainSeg_facts (s : String) (h : plainSeg s = true) :
    s ≠ "" ∧ (∀ c ∈ s.toList, c ≠ '/') ∧ s ≠ "." ∧ s ≠ ".." := by
  rw [plainSeg] at h
  simp only [Bool.and_eq_true, Bool.not_eq_true', beq_eq_false_iff_ne, ne_eq] at h
  refine ⟨h.1.1.1, ?_, h.1.2, h.2⟩
  intro c hc hceq
  have hcontains : s.toList.contains '/' = true := by
    subst hceq
    exact List.elem_iff.mpr hc
  rw [h.1.1.2] at hcontains
  exact Bool.false_ne_true hcontains

theorem splitSlashStr_append_seg (a n : String) (hn : ∀ c ∈ n.toList, c ≠ '/') :
    splitSlashStr (a ++ "/" ++ n) = splitSlashStr a ++ [n] := by
  rw [splitSlashStr, splitSlashStr]
  have htl : (a ++ "/" ++ n).toList = a.toList ++ '/' :: n.toList := by
    rw [strAppend_toList, strAppend_toList]
    rw [List.append_assoc]
    rfl
  rw [htl, splitSlash_append, List.map_append]
  rw [splitSlash_no_slash n.toList hn []]
  rw [show (([] : List Char).reverse ++ n.toList) = n.toList from by simp]
  rfl

theorem pathJoin_plain (dirP n : String)
    (hnorm : normalizePath dirP = dirP) (hroot : dirP ≠ "/")
    (hn : plainSeg n = true) :
    pathJoin dirP n = dirP ++ "/" ++ n := by
  obtain ⟨hn1, hn2, hn3, hn4⟩ := plainSeg_facts n hn
  rw [pathJoin, normalizePath]
  rw [splitSlashStr_append_seg dirP n hn2]
  rw [normSegs_append_plain n hn1 hn3 hn4]
  have hne : normSegs [] (splitSlashStr dirP) ≠ [] := by
    intro hc
    rw [normalizePath, hc] at hnorm
    rw [show joinSegs [] = "" from rfl, strAppend_empty] at hnorm
    exact hroot hnorm.symm
  rw [joinSegs_append_single n _ hne]
  rw [← strAppend_assoc "/" (joinSegs (normSegs [] (splitSlashStr dirP)) ++ "/") n]
  rw [← strAppend_assoc "/" (joinSegs (normSegs [] (splitSlashStr dirP))) "/"]
  rw [show ("/" ++ joinSegs (normSegs [] (splitSlashStr dirP))) = normalizePath dirP from rfl]
  rw [hnorm]

theorem mkOrdinalName_ordinal_inj (m₁ m₂ : Nat) (b₁ b₂ : String)
    (h : mkOrdinalName m₁ b₁ = mkOrdinalName m₂ b₂) : m₁ = m₂ := by
  have h1 := congrArg String.toList h
  rw [mkOrdinalName_toList, mkOrdinalName_toList] at h1
  have h2 := digits_underscore_inj (padList m₁) (padList m₂) b₁.toList b₂.toList
    (padList_all_digits m₁) (padList_all_digits m₂) h1
  have h3 := congrArg (parseDigitsAux 0) h2.1
  rw [parseDigitsAux_padList, parseDigitsAux_padList] at h3
  exact h3

theorem mkOrdinalName_length (m : Nat) (b : String) :
    5 ≤ (mkOrdinalName m b).toList.length := by
  rw [mkOrdinalName_toList, List.length_append, List.length_cons]
  have h1 : 1 ≤ (natDigits m).length := by
    cases hd : natDigits m with
    | nil => exact absurd hd (natDigits_ne_nil m)
    | cons c cs => simp
  have h2 : 4 ≤ (padList m).length := by
    rw [padList, List.length_append, List.length_replicate]
    omega
  omega

theorem mkOrdinalName_plainSeg (m : Nat) (b : String)
    (hb : ∀ c ∈ b.toList, c ≠ '/') : plainSeg (mkOrdinalName m b) = true := by
  have hlen := mkOrdinalName_length m b
  have hnoslash : ∀ c ∈ (mkOrdinalName m b).toList, c ≠ '/' := by
    intro c hc
    rw [mkOrdinalName_toList] at hc
    rw [List.mem_append, List.mem_cons] at hc
    rcases hc with hc | hc | hc
    · have := padList_all_digits m c hc
      intro hceq
      rw [hceq] at this
      exact absurd this (by decide)
    · subst hc; decide
    · exact hb c hc
  rw [plainSeg]
  have h1 : (mkOrdinalName m b == "") = false := by
    rw [beq_eq_false_iff_ne]
    intro hc
    have hTL := congrArg String.toList hc
    rw [show ("" : String).toList = [] from rfl] at hTL
    rw [hTL] at hlen
    simp at hlen
  have h2 : ((mkOrdinalName m b).toList.contains '/') = false := by
    cases hcb : (mkOrdinalName m b).toList.contains '/'
    · rfl
    · exact absurd rfl (hnoslash '/' (List.elem_iff.mp hcb))
  have h3 : (mkOrdinalName m b == ".") = false := by
    rw [beq_eq_false_iff_ne]
    intro hc
    have hTL := congrArg String.toList hc
    rw [show ("." : String).toList = ['.'] from rfl] at hTL
    rw [hTL] at hlen
    simp at hlen
  have h4 : (mkOrdinalName m b == "..") = false := by
    rw [beq_eq_false_iff_ne]
    intro hc
    have hTL := congrArg String.toList hc
    rw [show (".." : String).toList = ['.', '.'] from rfl] at hTL
    rw [hTL] at hlen
    simp at hlen
  rw [h1, h2, h3, h4]
  rfl

theorem contains_false_of_drop (l : List Char) (n : Nat) (c : Char)
    (h : l.contains c = false) : (l.drop n).contains c = false := by
  cases hd : (l.drop n).contains c
  · rfl
  · have : c ∈ l := List.drop_subset n l (List.elem_iff.mp hd)
    rw [show l.contains c = true from List.elem_iff.mpr this] at h
    exact absurd h (by simp)

theorem nameWithoutPfx_no_slash (s : String) (h : ∀ c ∈ s.toList, c ≠ '/') :
    ∀ c ∈ (nameWithoutPfx s).toList, c ≠ '/' := by
  intro c hc
  rw [nameWithoutPfx] at hc
  split at hc
  · rw [strDrop, stringToList_mk] at hc
    exact h c (List.drop_subset _ _ hc)
  · exact h c hc

/-- The per-entry effect of a clean (collision- and descendant-free)
cross-directory rename. -/
def moveKey (src dst : String) (e : String × FSEntry) : String × FSEntry :=
  if e.1 == src then (dst, e.2) else e

theorem fsHas_iff (fs : FS) (p : String) : fsHas fs p = true ↔ p ∈ fsPaths fs := by
  rw [fsHas, List.any_eq_true, fsPaths]
  constructor
  · rintro ⟨e, he, heq⟩
    exact (by simpa using heq : e.1 = p) ▸ List.mem_map_of_mem _ he
  · intro h
    rw [List.mem_map] at h
    obtain ⟨e, he, heq⟩ := h
    exact ⟨e, he, by simpa using heq⟩

theorem fsHas_false_iff (fs : FS) (p : String) :
    fsHas fs p = false ↔ p ∉ fsPaths fs := by
  constructor
  · intro h hc
    rw [(fsHas_iff fs p).mpr hc] at h
    exact absurd h (by simp)
  · intro h
    cases hb : fsHas fs p
    · rfl
    · exact absurd ((fsHas_iff fs p).mp hb) h

theorem renameFS_clean (fs : FS) (src dst : String)
    (hne : src ≠ dst)
    (hsrc_nodesc : ∀ q ∈ fsPaths fs, startsWithCL q.toList (src ++ "/").toList = false)
    (hdst_not : fsHas fs dst = false)
    (hdst_nodesc : ∀ q ∈ fsPaths fs, startsWithCL q.toList (dst ++ "/").toList = false) :
    renameFS fs src dst = fs.map (moveKey src dst) := by
  rw [renameFS, if_neg hne]
  have hdst_mem := (fsHas_false_iff fs dst).mp hdst_not
  rw [List.filter_eq_self.mpr ?hfilter]
  case hfilter =>
    intro e he
    rw [isUnder]
    have h1 : (e.1 == dst) = false := by
      rw [beq_eq_false_iff_ne]
      intro hc
      exact hdst_mem (hc ▸ List.mem_map_of_mem _ he)
    rw [h1, hdst_nodesc e.1 (List.mem_map_of_mem _ he)]
    simp
  refine List.map_congr_left ?_
  intro e he
  rw [isUnder, hsrc_nodesc e.1 (List.mem_map_of_mem _ he), Bool.or_false, moveKey]
  by_cases hsrc : (e.1 == src) = true
  · rw [if_pos hsrc, if_pos hsrc]
    have he1 : e.1 = src := by simpa using hsrc
    rw [he1, strDrop, List.drop_length]
    rw [show String.mk [] = "" from rfl, strAppend_empty]
  · rw [if_neg hsrc, if_neg hsrc]

theorem fsLookup_map_move_dst (fs : FS) (src dst : String)
    (hdst : fsHas fs dst = false) (_hne : src ≠ dst) :
    fsLookup (fs.map (moveKey src dst)) dst = fsLookup fs src := by
  induction fs with
  | nil => rfl
  | cons e es ih =>
    have hdst2 : fsHas es dst = false := by
      rw [fsHas, List.any_cons] at hdst
      cases hb : fsHas es dst
      · rfl
      · rw [fsHas] at hb; rw [hb, Bool.or_true] at hdst; exact absurd hdst (by simp)
    have hedst : (e.1 == dst) = false := by
      rw [fsHas, List.any_cons] at hdst
      cases hb : (e.1 == dst)
      · rfl
      · rw [hb, Bool.true_or] at hdst; exact absurd hdst (by simp)
    rw [List.map_cons, moveKey]
    by_cases hsrc : (e.1 == src) = true
    · rw [if_pos hsrc]
      simp only [fsLookup, List.find?_cons]
      rw [show ((dst, e.2).1 == dst) = true from by simp, hsrc]
      rfl
    · rw [if_neg hsrc]
      simp only [fsLookup, List.find?_cons, hedst]
      rw [show (e.1 == src) = false from by simpa using hsrc]
      exact ih hdst2

theorem fsLookup_map_move_src (fs : FS) (src dst : String) (hne : src ≠ dst) :
    fsLookup (fs.map (moveKey src dst)) src = none := by
  induction fs with
  | nil => rfl
  | cons e es ih =>
    rw [List.map_cons, moveKey]
    by_cases hsrc : (e.1 == src) = true
    · rw [if_pos hsrc]
      simp only [fsLookup, List.find?_cons]
      rw [show ((dst, e.2).1 == src) = false from by
        rw [beq_eq_false_iff_ne]; exact fun hc => hne hc.symm]
      exact ih
    · rw [if_neg hsrc]
      simp only [fsLookup, List.find?_cons]
      rw [show (e.1 == src) = false from by simpa using hsrc]
      exact ih

theorem fsLookup_map_move_other (fs : FS) (src dst q : String)
    (hq1 : q ≠ src) (hq2 : q ≠ dst) :
    fsLookup (fs.map (moveKey src dst)) q = fsLookup fs q := by
  induction fs with
  | nil => rfl
  | cons e es ih =>
    rw [List.map_cons, moveKey]
    by_cases hsrc : (e.1 == src) = true
    · rw [if_pos hsrc]
      have he1 : e.1 = src := by simpa using hsrc
      simp only [fsLookup, List.find?_cons]
      rw [show ((dst, e.2).1 == q) = false from by
        rw [beq_eq_false_iff_ne]; exact fun hc => hq2 hc.symm]
      rw [show (e.1 == q) = false from by
        rw [beq_eq_false_iff_ne, he1]; exact fun hc => hq1 hc.symm]
      exact ih
    · rw [if_neg hsrc]
      cases hb : (e.1 == q)
      · simp only [fsLookup, List.find?_cons, hb]
        exact ih
      · simp only [fsLookup, List.find?_cons, hb]

theorem fsPaths_map_move (fs : FS) (src dst : String) :
    fsPaths (fs.map (moveKey src dst)) =
      (fsPaths fs).map (fun p => if p = src then dst else p) := by
  rw [fsPaths, fsPaths, List.map_map, List.map_map]
  refine List.map_congr_left ?_
  intro e _
  simp only [Function.comp, moveKey]
  by_cases hsrc : (e.1 == src) = true
  · rw [if_pos hsrc, if_pos (by simpa using hsrc)]
  · rw [if_neg hsrc, if_neg (by simpa using hsrc)]

theorem fsHas_map_move_false (fs : FS) (src dst q : String)
    (hq2 : q ≠ dst) (hq : fsHas fs q = false) :
    fsHas (fs.map (moveKey src dst)) q = false := by
  rw [fsHas_false_iff, fsPaths_map_move]
  intro hc
  rw [List.mem_map] at hc
  obtain ⟨p, hp, heq⟩ := hc
  by_cases hps : p = src
  · rw [if_pos hps] at heq
    exact hq2 heq.symm
  · rw [if_neg hps] at heq
    exact (fsHas_false_iff fs q).mp hq (heq ▸ hp)

theorem fsPaths_nodup_map_move (fs : FS) (src dst : String)
    (hnodup : (fsPaths fs).Nodup) (hdst : dst ∉ fsPaths fs) :
    (fsPaths (fs.map (moveKey src dst))).Nodup := by
  rw [fsPaths_map_move]
  refine List.Nodup.map_on ?_ hnodup
  intro x hx y hy hxy
  by_cases hxs : x = src
  · by_cases hys : y = src
    · rw [hxs, hys]
    · rw [if_pos hxs, if_neg hys] at hxy
      exact absurd (hxy ▸ hy) hdst
  · by_cases hys : y = src
    · rw [if_neg hxs, if_pos hys] at hxy
      exact absurd (hxy ▸ hx : dst ∈ fsPaths fs) hdst
    · rw [if_neg hxs, if_neg hys] at hxy
      exact hxy

theorem fsHas_map_move_true (fs : FS) (src dst q : String)
    (hq : q ≠ src) (h : fsHas fs q = true) :
    fsHas (fs.map (moveKey src dst)) q = true := by
  rw [fsHas_iff] at h ⊢
  rw [fsPaths_map_move]
  exact List.mem_map.mpr ⟨q, h, by rw [if_neg hq]⟩

theorem prefix_of_snoc (l₁ l₂ : List Char) (c : Char)
    (h : l₁ <+: l₂ ++ [c]) (hle : l₁.length ≤ l₂.length) : l₁ <+: l₂ := by
  rw [List.prefix_iff_eq_take] at h ⊢
  rw [List.take_append_eq_append_take] at h
  rw [show l₁.length - l₂.length = 0 from by omega] at h
  rw [List.take_zero, List.append_nil] at h
  exact h

theorem startsWith_trans (l p₁ p₂ : List Char)
    (h₁ : startsWithCL l p₁ = true) (hp : p₂ <+: p₁) : startsWithCL l p₂ = true :=
  (startsWithCL_iff l p₂).mpr (hp.trans ((startsWithCL_iff l p₁).mp h₁))

theorem childPath_toList (A n : String) :
    (A ++ "/" ++ n).toList = (A ++ "/").toList ++ n.toList := by
  rw [strAppend_toList]

theorem startsWith_append_child (A n : String) :
    startsWithCL (A ++ "/" ++ n).toList (A ++ "/").toList = true := by
  rw [childPath_toList]
  exact (startsWithCL_iff _ _).mpr (List.prefix_append _ _)

theorem targetChild_pfx (T n : String) :
    (T ++ "/").toList <+: ((T ++ "/" ++ n) ++ "/").toList := by
  rw [strAppend_toList (T ++ "/" ++ n) "/", childPath_toList, List.append_assoc]
  exact List.prefix_append _ _

theorem child_not_under_child (A n m : String)
    (hn : ∀ c ∈ n.toList, c ≠ '/') :
    startsWithCL (A ++ "/" ++ n).toList ((A ++ "/" ++ m) ++ "/").toList = false := by
  cases hb : startsWithCL (A ++ "/" ++ n).toList ((A ++ "/" ++ m) ++ "/").toList
  · rfl
  · exfalso
    have h := (startsWithCL_iff _ _).mp hb
    rw [strAppend_toList (A ++ "/" ++ m) "/", childPath_toList A m, childPath_toList A n,
      List.append_assoc] at h
    rw [List.prefix_append_right_inj] at h
    have hmem : '/' ∈ n.toList := h.subset (by
      rw [show ("/" : String).toList = ['/'] from rfl]
      simp)
    exact hn '/' hmem rfl

theorem childPath_inj (A n m : String) (h : A ++ "/" ++ n = A ++ "/" ++ m) : n = m := by
  have h1 := congrArg String.toList h
  rw [childPath_toList, childPath_toList] at h1
  exact string_eq_of_data n m (List.append_cancel_left h1)

theorem under_cases (T sp n : String)
    (h : startsWithCL (T ++ "/" ++ n).toList (sp ++ "/").toList = true) :
    sp = T ∨ startsWithCL T.toList (sp ++ "/").toList = true ∨
      startsWithCL sp.toList (T ++ "/").toList = true := by
  have hpfx := (startsWithCL_iff _ _).mp h
  have hTpfx : (T ++ "/").toList <+: (T ++ "/" ++ n).toList := by
    rw [childPath_toList]; exact List.prefix_append _ _
  have hsl : (sp ++ "/").toList = sp.toList ++ ['/'] := by
    rw [strAppend_toList]; rfl
  have hTl : (T ++ "/").toList = T.toList ++ ['/'] := by
    rw [strAppend_toList]; rfl
  by_cases hle : sp.toList.length ≤ T.toList.length
  · have h1 : (sp ++ "/").toList <+: (T ++ "/").toList := by
      refine List.prefix_of_prefix_length_le hpfx hTpfx ?_
      rw [hsl, hTl]
      simp only [List.length_append, List.length_cons, List.length_nil]
      omega
    by_cases heq : sp.toList.length = T.toList.length
    · left
      have h2 : (sp ++ "/").toList = (T ++ "/").toList := by
        refine h1.eq_of_length ?_
        rw [hsl, hTl]
        simp only [List.length_append, List.length_cons, List.length_nil]
        omega
      rw [hsl, hTl] at h2
      exact string_eq_of_data sp T (List.append_inj h2 heq).1
    · right; left
      have h2 : (sp ++ "/").toList <+: T.toList := by
        refine prefix_of_snoc _ _ '/' (hTl ▸ h1) ?_
        rw [hsl]
        simp only [List.length_append, List.length_cons, List.length_nil]
        omega
      exact (startsWithCL_iff _ _).mpr h2
  · right; right
    have h1 : (T ++ "/").toList <+: (sp ++ "/").toList := by
      refine List.prefix_of_prefix_length_le hTpfx hpfx ?_
      rw [hsl, hTl]
      simp only [List.length_append, List.length_cons, List.length_nil]
      omega
    have h2 : (T ++ "/").toList <+: sp.toList := by
      refine prefix_of_snoc _ _ '/' (hsl ▸ h1) ?_
      rw [hTl]
      simp only [List.length_append, List.length_cons, List.length_nil]
      omega
    exact (startsWithCL_iff _ _).mpr h2

theorem childNamesFS_empty (fs : FS) (T : String)
    (h : ∀ q ∈ fsPaths fs, startsWithCL q.toList (T ++ "/").toList = false) :
    childNamesFS fs T = [] := by
  rw [childNamesFS, List.filterMap_eq_nil_iff]
  intro p hp
  show (if startsWithCL p.toList (T ++ "/").toList then _ else none) = none
  rw [h p hp]
  rfl

/-- The rename events produced by a clean cross-folder paste loop: item
number `i` is renamed from its source path to the target folder under
ordinal `i`. -/
def pasteRenames (root T : String) : Nat → List String → List FSEvent
  | _, [] => []
  | i, p :: rest =>
    FSEvent.rename (pathJoin root p)
        (T ++ "/" ++ mkOrdinalName i (nameWithoutPfx (basename p))) ::
      pasteRenames root T (i + 1) rest

theorem moveLoop_nil (root T tfn : String) (io : Nat) (tms : List TempMove)
    (i : Nat) (fs : FS) (tr : List FSEvent) (cnt : Nat) (errs : List String) :
    moveLoop root T tfn io tms i [] fs tr cnt errs = (fs, tr, cnt, errs) := rfl

theorem moveLoop_cons (root T tfn : String) (io : Nat) (tms : List TempMove)
    (i : Nat) (item : String) (rest : List String) (fs : FS) (tr : List FSEvent)
    (cnt : Nat) (errs : List String) :
    moveLoop root T tfn io tms i (item :: rest) fs tr cnt errs =
      (let isFromSameFolder := normDirStr item == tfn
       if isFromSameFolder && !tms.isEmpty then
         match tms.find? (fun tm => basename tm.originalPath == basename item) with
         | some tm =>
           let finalFilePath := pathJoin T tm.finalName
           let fs2 := renameFS fs tm.tempPath finalFilePath
           let tr2 := tr ++ [FSEvent.rename tm.tempPath finalFilePath]
           moveLoop root T tfn io tms (i + 1) rest fs2 tr2 (cnt + 1) errs
         | none =>
           moveLoop root T tfn io tms (i + 1) rest fs tr cnt
             (errs ++ ["Temporary file not found for " ++ item])
       else
         let itemName := basename item
         let sourceFilePath := pathJoin root item
         if !(fsHas fs sourceFilePath) then
           moveLoop root T tfn io tms (i + 1) rest fs tr cnt
             (errs ++ ["Source file not found: " ++ item])
         else
           let targetFileName := mkOrdinalName (io + i) (nameWithoutPfx itemName)
           let targetFilePath := pathJoin T targetFileName
           if fsHas fs targetFilePath then
             moveLoop root T tfn io tms (i + 1) rest fs tr cnt
               (errs ++ ["Target file already exists: " ++ targetFileName])
           else
             let fs2 := renameFS fs sourceFilePath targetFilePath
             let tr2 := tr ++ [FSEvent.rename sourceFilePath targetFilePath]
             moveLoop root T tfn io tms (i + 1) rest fs2 tr2 (cnt + 1) errs) := rfl

theorem moveLoop_cons_go (root T tfn : String) (io : Nat)
    (i : Nat) (item : String) (rest : List String) (fs : FS) (tr : List FSEvent)
    (cnt : Nat) (errs : List String)
    (hsrc : fsHas fs (pathJoin root item) = true)
    (htgt : fsHas fs (pathJoin T (mkOrdinalName (io + i) (nameWithoutPfx (basename item)))) = false) :
    moveLoop root T tfn io [] i (item :: rest) fs tr cnt errs =
      moveLoop root T tfn io [] (i + 1) rest
        (renameFS fs (pathJoin root item)
          (pathJoin T (mkOrdinalName (io + i) (nameWithoutPfx (basename item)))))
        (tr ++ [FSEvent.rename (pathJoin root item)
          (pathJoin T (mkOrdinalName (io + i) (nameWithoutPfx (basename item))))])
        (cnt + 1) errs := by
  rw [moveLoop_cons]
  simp only []
  rw [show ((normDirStr item == tfn) && !(List.isEmpty ([] : List TempMove))) = false from by
    simp]
  rw [if_neg (by decide : ¬(false = true))]
  rw [hsrc]
  rw [show (!true) = false from rfl]
  rw [if_neg (by decide : ¬(false = true))]
  rw [htgt]
  rw [if_neg (by decide : ¬(false = true))]

theorem moveLoop_assigns (root T tfn : String)
    (hTnorm : normalizePath T = T) (hTroot : T ≠ "/") :
    ∀ (rest : List String) (i : Nat) (fs : FS) (tr : List FSEvent) (cnt : Nat)
      (errs : List String),
    T ∈ fsPaths fs →
    (∀ p ∈ rest, fsHas fs (pathJoin root p) = true) →
    (rest.map (fun p => pathJoin root p)).Nodup →
    (∀ p ∈ rest, ∀ q ∈ fsPaths fs,
      startsWithCL q.toList ((pathJoin root p) ++ "/").toList = false) →
    (∀ p ∈ rest, isUnder T (pathJoin root p) = false) →
    (∀ p ∈ rest, ∀ c ∈ (nameWithoutPfx (basename p)).toList, c ≠ '/') →
    (∀ j p, rest.get? j = some p →
      fsHas fs (T ++ "/" ++ mkOrdinalName (i + j) (nameWithoutPfx (basename p))) = false) →
    (∀ j p, rest.get? j = some p → ∀ q ∈ fsPaths fs,
      startsWithCL q.toList
        ((T ++ "/" ++ mkOrdinalName (i + j) (nameWithoutPfx (basename p))) ++ "/").toList
        = false) →
    (moveLoop root T tfn 0 [] i rest fs tr cnt errs).2.2.1 = cnt + rest.length ∧
    (moveLoop root T tfn 0 [] i rest fs tr cnt errs).2.2.2 = errs ∧
    (moveLoop root T tfn 0 [] i rest fs tr cnt errs).2.1 =
      tr ++ pasteRenames root T i rest ∧
    (∀ j p, rest.get? j = some p →
      fsLookup (moveLoop root T tfn 0 [] i rest fs tr cnt errs).1
          (T ++ "/" ++ mkOrdinalName (i + j) (nameWithoutPfx (basename p))) =
        fsLookup fs (pathJoin root p)) ∧
    (∀ p ∈ rest,
      fsLookup (moveLoop root T tfn 0 [] i rest fs tr cnt errs).1 (pathJoin root p) =
        none) ∧
    (∀ q, (∀ p ∈ rest, q ≠ pathJoin root p) →
      (∀ j p, rest.get? j = some p →
        q ≠ T ++ "/" ++ mkOrdinalName (i + j) (nameWithoutPfx (basename p))) →
      fsLookup (moveLoop root T tfn 0 [] i rest fs tr cnt errs).1 q = fsLookup fs q) := by
  intro rest
  induction rest with
  | nil =>
    intro i fs tr cnt errs _ _ _ _ _ _ _ _
    rw [moveLoop_nil]
    refine ⟨rfl, rfl, ?_, ?_, ?_, ?_⟩
    · rw [show pasteRenames root T i [] = [] from rfl, List.append_nil]
    · intro j p hget
      exact Option.noConfusion hget
    · intro p hp
      exact absurd hp (List.not_mem_nil p)
    · intro q _ _
      rfl
  | cons p rest' ih =>
    intro i fs tr cnt errs hmem hsrc hnod hnodesc hout hplain htgt htgtdesc
    have hpmem : p ∈ p :: rest' := List.mem_cons_self p rest'
    have houtp : ((pathJoin root p == T) = false) ∧
        (startsWithCL (pathJoin root p).toList (T ++ "/").toList = false) := by
      have h1 := hout p hpmem
      rw [isUnder, Bool.or_eq_false_iff] at h1
      exact h1
    have hspT : pathJoin root p ≠ T := by
      have h1 := houtp.1
      rwa [beq_eq_false_iff_ne] at h1
    have hplainp := hplain p hpmem
    have hnmplain : plainSeg (mkOrdinalName i (nameWithoutPfx (basename p))) = true :=
      mkOrdinalName_plainSeg i _ hplainp
    have hmkslash : ∀ c ∈ (mkOrdinalName i (nameWithoutPfx (basename p))).toList, c ≠ '/' :=
      (plainSeg_facts _ hnmplain).2.1
    have hpj : pathJoin T (mkOrdinalName (0 + i) (nameWithoutPfx (basename p))) =
        T ++ "/" ++ mkOrdinalName i (nameWithoutPfx (basename p)) := by
      rw [Nat.zero_add]
      exact pathJoin_plain T _ hTnorm hTroot hnmplain
    have hsp0 : fsHas fs (pathJoin root p) = true := hsrc p hpmem
    have htp0 : fsHas fs
        (T ++ "/" ++ mkOrdinalName i (nameWithoutPfx (basename p))) = false :=
      htgt 0 p rfl
    have htp0' : fsHas fs
        (pathJoin T (mkOrdinalName (0 + i) (nameWithoutPfx (basename p)))) = false := by
      rw [hpj]
      exact htp0
    have hstep := moveLoop_cons_go root T tfn 0 i p rest' fs tr cnt errs hsp0 htp0'
    rw [hpj] at hstep
    have hne_sptp : pathJoin root p ≠
        T ++ "/" ++ mkOrdinalName i (nameWithoutPfx (basename p)) := by
      intro hc
      have h1 := startsWith_append_child T (mkOrdinalName i (nameWithoutPfx (basename p)))
      rw [← hc] at h1
      rw [houtp.2] at h1
      exact Bool.false_ne_true h1
    have hclean : renameFS fs (pathJoin root p)
          (T ++ "/" ++ mkOrdinalName i (nameWithoutPfx (basename p))) =
        fs.map (moveKey (pathJoin root p)
          (T ++ "/" ++ mkOrdinalName i (nameWithoutPfx (basename p)))) :=
      renameFS_clean fs _ _ hne_sptp (hnodesc p hpmem) htp0 (htgtdesc 0 p rfl)
    rw [hclean] at hstep
    have hT_ne_child : ∀ (k : Nat) (b : String), ∀ p' ∈ p :: rest',
        T ++ "/" ++ mkOrdinalName k b ≠ pathJoin root p' := by
      intro k b p' hp' hc
      have h1 := startsWith_append_child T (mkOrdinalName k b)
      rw [hc] at h1
      have h2 := hout p' hp'
      rw [isUnder, Bool.or_eq_false_iff] at h2
      rw [h2.2] at h1
      exact Bool.false_ne_true h1
    have htp_inj : ∀ (k₁ k₂ : Nat) (b₁ b₂ : String), k₁ ≠ k₂ →
        T ++ "/" ++ mkOrdinalName k₁ b₁ ≠ T ++ "/" ++ mkOrdinalName k₂ b₂ := by
      intro k₁ k₂ b₁ b₂ hk hc
      exact hk (mkOrdinalName_ordinal_inj k₁ k₂ b₁ b₂ (childPath_inj T _ _ hc))
    have hsp_ne : ∀ p' ∈ rest', pathJoin root p' ≠ pathJoin root p := by
      intro p' hp' hc
      have h1 : pathJoin root p ∉ rest'.map (fun x => pathJoin root x) := by
        have h2 := hnod
        rw [List.map_cons, List.nodup_cons] at h2
        exact h2.1
      exact h1 (hc ▸ List.mem_map_of_mem _ hp')
    have htp_not_under : ∀ (k : Nat) (b : String), ∀ p' ∈ p :: rest',
        startsWithCL (T ++ "/" ++ mkOrdinalName k b).toList
          ((pathJoin root p') ++ "/").toList = false := by
      intro k b p' hp'
      cases hb : startsWithCL (T ++ "/" ++ mkOrdinalName k b).toList
          ((pathJoin root p') ++ "/").toList
      · rfl
      · exfalso
        rcases under_cases T (pathJoin root p') (mkOrdinalName k b) hb with h1 | h1 | h1
        · have h2 := hout p' hp'
          rw [isUnder, Bool.or_eq_false_iff] at h2
          have h3 := h2.1
          rw [beq_eq_false_iff_ne] at h3
          exact h3 h1
        · have h2 := hnodesc p' hp' T hmem
          rw [h2] at h1
          exact Bool.false_ne_true h1
        · have h2 := hout p' hp'
          rw [isUnder, Bool.or_eq_false_iff] at h2
          rw [h2.2] at h1
          exact Bool.false_ne_true h1
    have hTne_sp : T ≠ pathJoin root p := fun hc => hspT hc.symm
    have hmem2 : T ∈ fsPaths (fs.map (moveKey (pathJoin root p)
        (T ++ "/" ++ mkOrdinalName i (nameWithoutPfx (basename p))))) := by
      rw [fsPaths_map_move]
      exact List.mem_map.mpr ⟨T, hmem, by rw [if_neg hTne_sp]⟩
    have hsrc2 : ∀ p' ∈ rest', fsHas (fs.map (moveKey (pathJoin root p)
        (T ++ "/" ++ mkOrdinalName i (nameWithoutPfx (basename p)))))
        (pathJoin root p') = true := by
      intro p' hp'
      exact fsHas_map_move_true fs _ _ _ (hsp_ne p' hp')
        (hsrc p' (List.mem_cons_of_mem p hp'))
    have hnod2 : (rest'.map (fun x => pathJoin root x)).Nodup := by
      have h2 := hnod
      rw [List.map_cons, List.nodup_cons] at h2
      exact h2.2
    have hnodesc2 : ∀ p' ∈ rest', ∀ q' ∈ fsPaths (fs.map (moveKey (pathJoin root p)
        (T ++ "/" ++ mkOrdinalName i (nameWithoutPfx (basename p))))),
        startsWithCL q'.toList ((pathJoin root p') ++ "/").toList = false := by
      intro p' hp' q' hq'
      rw [fsPaths_map_move] at hq'
      obtain ⟨q, hq, hqe⟩ := List.mem_map.mp hq'
      by_cases hqs : q = pathJoin root p
      · rw [if_pos hqs] at hqe
        rw [← hqe]
        exact htp_not_under i _ p' (List.mem_cons_of_mem p hp')
      · rw [if_neg hqs] at hqe
        rw [← hqe]
        exact hnodesc p' (List.mem_cons_of_mem p hp') q hq
    have hout2 : ∀ p' ∈ rest', isUnder T (pathJoin root p') = false :=
      fun p' hp' => hout p' (List.mem_cons_of_mem p hp')
    have hplain2 : ∀ p' ∈ rest', ∀ c ∈ (nameWithoutPfx (basename p')).toList, c ≠ '/' :=
      fun p' hp' => hplain p' (List.mem_cons_of_mem p hp')
    have htgt2 : ∀ j p', rest'.get? j = some p' →
        fsHas (fs.map (moveKey (pathJoin root p)
          (T ++ "/" ++ mkOrdinalName i (nameWithoutPfx (basename p)))))
          (T ++ "/" ++ mkOrdinalName ((i + 1) + j) (nameWithoutPfx (basename p'))) =
          false := by
      intro j p' hget
      have hidx : (i + 1) + j = i + (j + 1) := by omega
      rw [hidx]
      refine fsHas_map_move_false fs _ _ _ ?_ (htgt (j + 1) p' hget)
      exact htp_inj (i + (j + 1)) i _ _ (by omega)
    have htgtdesc2 : ∀ j p', rest'.get? j = some p' →
        ∀ q' ∈ fsPaths (fs.map (moveKey (pathJoin root p)
          (T ++ "/" ++ mkOrdinalName i (nameWithoutPfx (basename p))))),
        startsWithCL q'.toList
          ((T ++ "/" ++ mkOrdinalName ((i + 1) + j) (nameWithoutPfx (basename p'))) ++
            "/").toList = false := by
      intro j p' hget q' hq'
      rw [fsPaths_map_move] at hq'
      obtain ⟨q, hq, hqe⟩ := List.mem_map.mp hq'
      by_cases hqs : q = pathJoin root p
      · rw [if_pos hqs] at hqe
        rw [← hqe]
        exact child_not_under_child T _ _ hmkslash
      · rw [if_neg hqs] at hqe
        rw [← hqe]
        have hidx : (i + 1) + j = i + (j + 1) := by omega
        rw [hidx]
        exact htgtdesc (j + 1) p' hget q hq
    obtain ⟨C1, C2, C3, C4, C5, C6⟩ := ih (i + 1)
      (fs.map (moveKey (pathJoin root p)
        (T ++ "/" ++ mkOrdinalName i (nameWithoutPfx (basename p)))))
      (tr ++ [FSEvent.rename (pathJoin root p)
        (T ++ "/" ++ mkOrdinalName i (nameWithoutPfx (basename p)))])
      (cnt + 1) errs hmem2 hsrc2 hnod2 hnodesc2 hout2 hplain2 htgt2 htgtdesc2
    rw [hstep]
    refine ⟨?_, C2, ?_, ?_, ?_, ?_⟩
    · rw [C1, List.length_cons]
      omega
    · rw [C3, List.append_assoc]
      rfl
    · intro j p'' hget
      cases j with
      | zero =>
        have hpp : p = p'' := Option.some.inj hget
        subst hpp
        simp only [Nat.add_zero]
        rw [C6 (T ++ "/" ++ mkOrdinalName i (nameWithoutPfx (basename p)))
          (fun p' hp' => hT_ne_child i _ p' (List.mem_cons_of_mem p hp'))
          (fun j' p' _ => htp_inj i ((i + 1) + j') _ _ (by omega))]
        exact fsLookup_map_move_dst fs _ _ htp0 hne_sptp
      | succ j =>
        have h1 := C4 j p'' hget
        have hidx : i + (j + 1) = (i + 1) + j := by omega
        rw [hidx, h1]
        refine fsLookup_map_move_other fs _ _ _ ?_ ?_
        · exact hsp_ne p'' (List.get?_mem hget)
        · exact (hT_ne_child i _ p''
            (List.mem_cons_of_mem p (List.get?_mem hget))).symm
    · intro p'' hp''
      rcases List.mem_cons.mp hp'' with hpe | hp'
      · subst hpe
        rw [C6 (pathJoin root p'')
          (fun p' hp' => (hsp_ne p' hp').symm)
          (fun j' p' _ => (hT_ne_child ((i + 1) + j') _ p'' hpmem).symm)]
        exact fsLookup_map_move_src fs _ _ hne_sptp
      · exact C5 p'' hp'
    · intro q hq1 hq2
      rw [C6 q (fun p' hp' => hq1 p' (List.mem_cons_of_mem p hp'))
        (fun j' p' hget => by
          have hidx : (i + 1) + j' = i + (j' + 1) := by omega
          rw [hidx]
          exact hq2 (j' + 1) p' hget)]
      refine fsLookup_map_move_other fs _ _ _ ?_ ?_
      · exact hq1 p hpmem
      · exact hq2 0 p rfl

theorem shiftGo_nil (n : Nat) (dirPath root : String) (fs : FS) (tr : List FSEvent)
    (mp : List (String × String)) :
    shiftGo n dirPath root [] fs tr mp = (fs, tr, mp, false) := rfl

theorem remapItem_nil (p : String) : remapItem [] p = p := rfl

theorem pasteItemsCore_cross (root targetFolder T : String) (items : List String)
    (now : String) (fs : FS)
    (hT : pathJoin root targetFolder = T)
    (htf : targetFolder ≠ "") (hitems : items ≠ []) (htfroot : targetFolder ≠ "/")
    (hok : checkFileAccess T root = true)
    (hfsT : fsHas fs T = true)
    (hcross : ∀ p ∈ items, normDirStr p ≠ targetFolder)
    (hempty : childNamesFS fs T = []) :
    pasteItemsCore root targetFolder items none now fs =
      ⟨(moveLoop root T targetFolder 0 [] 0 items fs [FSEvent.check T true] 0 []).1,
       (moveLoop root T targetFolder 0 [] 0 items fs [FSEvent.check T true] 0 []).2.1,
       200,
       decide (0 < (moveLoop root T targetFolder 0 [] 0 items fs
         [FSEvent.check T true] 0 []).2.2.1),
       (moveLoop root T targetFolder 0 [] 0 items fs [FSEvent.check T true] 0 []).2.2.1,
       (moveLoop root T targetFolder 0 [] 0 items fs
         [FSEvent.check T true] 0 []).2.2.2⟩ := by
  have hie : items.isEmpty = false := by
    cases items with
    | nil => exact absurd rfl hitems
    | cons a l => rfl
  have hany : items.any (fun p => normDirStr p == targetFolder) = false := by
    rw [List.any_eq_false]
    intro p hp hx
    have h1 : (normDirStr p == targetFolder) = false :=
      beq_eq_false_iff_ne.mpr (hcross p hp)
    rw [h1] at hx
    exact Bool.false_ne_true hx
  rw [pasteItemsCore]
  rw [if_neg (by
    intro hc
    rcases hc with hc | hc
    · exact htf hc
    · rw [hie] at hc
      exact Bool.false_ne_true hc)]
  simp only [hT, hok, Bool.not_true, if_neg (by decide : ¬(false = true)), hfsT]
  rw [if_neg htfroot]
  rw [hany]
  rw [if_neg (by decide : ¬(false = true))]
  simp only [shiftOrdinalsDownFS, hempty, List.filter_nil]
  rw [show ([] : List String).insertionSort
    (fun a b => getOrdinalFromName b ≤ getOrdinalFromName a) = [] from rfl]
  rw [shiftGo_nil]
  simp only []
  rw [if_neg (by decide : ¬(false = true))]
  rw [List.map_congr_left (fun a _ => remapItem_nil a), List.map_id']
  rw [show insertOrdinalOf none = 0 from rfl]

/-- **C4.** In `pasteItems` the insertion ordinal is `targetOrdinal + 1` when a
target ordinal with a parsable 4-digit prefix is given and `0` otherwise; and
pasting `k` cross-folder items with no target ordinal into an existing empty
target directory succeeds with `pastedCount = k`, no errors, a trace of the
single target-folder access check followed by exactly one rename per item, and
the item at (pre-sorted) position `j` is assigned ordinal `j` — the ordinals
`0 .. k-1` in the given order: its payload appears in the target folder under
the ordinal name `mkOrdinalName j` of its stripped base name, and its source
path is gone. -/
theorem c4_insert_ordinal_assignment
    (t : String) (m : Nat) (ht : t ≠ "") (hpt : parseOrdinal t = some m)
    (root targetFolder T now : String) (items : List String) (fs : FS)
    (hT : pathJoin root targetFolder = T)
    (htf : targetFolder ≠ "") (htfroot : targetFolder ≠ "/") (hitems : items ≠ [])
    (hsorted : items.insertionSort nameLe = items)
    (hok : checkFileAccess T root = true)
    (hTin : T ∈ fsPaths fs)
    (hTnorm : normalizePath T = T) (hTroot : T ≠ "/")
    (hempty : ∀ q ∈ fsPaths fs, startsWithCL q.toList (T ++ "/").toList = false)
    (hcross : ∀ p ∈ items, normDirStr p ≠ targetFolder)
    (hsrc : ∀ p ∈ items, fsHas fs (pathJoin root p) = true)
    (hnod : (items.map (fun p => pathJoin root p)).Nodup)
    (hnodesc : ∀ p ∈ items, ∀ q ∈ fsPaths fs,
      startsWithCL q.toList ((pathJoin root p) ++ "/").toList = false)
    (hout : ∀ p ∈ items, isUnder T (pathJoin root p) = false)
    (hplain : ∀ p ∈ items, ∀ c ∈ (nameWithoutPfx (basename p)).toList, c ≠ '/') :
    insertOrdinalOf (some t) = m + 1 ∧
    insertOrdinalOf none = 0 ∧
    (pasteItemsOp root targetFolder items none now fs).status = 200 ∧
    (pasteItemsOp root targetFolder items none now fs).success = true ∧
    (pasteItemsOp root targetFolder items none now fs).pastedCount = items.length ∧
    (pasteItemsOp root targetFolder items none now fs).errors = [] ∧
    (pasteItemsOp root targetFolder items none now fs).trace =
      FSEvent.check T true :: pasteRenames root T 0 items ∧
    (∀ j p, items.get? j = some p →
      fsLookup (pasteItemsOp root targetFolder items none now fs).fs
          (T ++ "/" ++ mkOrdinalName j (nameWithoutPfx (basename p))) =
        fsLookup fs (pathJoin root p)) ∧
    (∀ p ∈ items,
      fsLookup (pasteItemsOp root targetFolder items none now fs).fs
        (pathJoin root p) = none) := by
  have hcore : pasteItemsOp root targetFolder items none now fs =
      pasteItemsCore root targetFolder items none now fs := by
    simp only [pasteItemsOp]
    rw [hsorted]
  have hfsTtrue : fsHas fs T = true := (fsHas_iff fs T).mpr hTin
  have hCN : childNamesFS fs T = [] := childNamesFS_empty fs T hempty
  have htgt0 : ∀ j p, items.get? j = some p →
      fsHas fs (T ++ "/" ++ mkOrdinalName (0 + j) (nameWithoutPfx (basename p))) =
        false := by
    intro j p _
    rw [fsHas_false_iff]
    intro hc
    have h1 := hempty _ hc
    rw [startsWith_append_child T _] at h1
    exact Bool.false_ne_true h1.symm
  have htgtdesc0 : ∀ j p, items.get? j = some p → ∀ q ∈ fsPaths fs,
      startsWithCL q.toList
        ((T ++ "/" ++ mkOrdinalName (0 + j) (nameWithoutPfx (basename p))) ++
          "/").toList = false := by
    intro j p _ q hq
    cases hb : startsWithCL q.toList
        ((T ++ "/" ++ mkOrdinalName (0 + j) (nameWithoutPfx (basename p))) ++
          "/").toList
    · rfl
    · exfalso
      have h1 := startsWith_trans _ _ _ hb (targetChild_pfx T _)
      rw [hempty q hq] at h1
      exact Bool.false_ne_true h1
  obtain ⟨K1, K2, K3, K4, K5, K6⟩ := moveLoop_assigns root T targetFolder hTnorm hTroot
    items 0 fs [FSEvent.check T true] 0 [] hTin hsrc hnod hnodesc hout hplain
    htgt0 htgtdesc0
  have hred := pasteItemsCore_cross root targetFolder T items now fs hT htf hitems
    htfroot hok hfsTtrue hcross hCN
  rw [hcore, hred]
  refine ⟨insertOrdinalOf_some t m ht hpt, rfl, rfl, ?_, ?_, K2, ?_, ?_, ?_⟩
  · show decide (0 < (moveLoop root T targetFolder 0 [] 0 items fs
      [FSEvent.check T true] 0 []).2.2.1) = true
    rw [K1, Nat.zero_add]
    exact decide_eq_true (List.length_pos.mpr hitems)
  · show (moveLoop root T targetFolder 0 [] 0 items fs
      [FSEvent.check T true] 0 []).2.2.1 = items.length
    rw [K1]
    exact Nat.zero_add _
  · show (moveLoop root T targetFolder 0 [] 0 items fs
      [FSEvent.check T true] 0 []).2.1 =
        FSEvent.check T true :: pasteRenames root T 0 items
    rw [K3]
    rfl
  · intro j p hget
    have h1 := K4 j p hget
    rwa [Nat.zero_add] at h1
  · intro p hp
    exact K5 p hp

/-- The concrete filesystem for the C4 witness: a root, an empty target
directory, and a sibling folder holding the two source files. -/
def c4fs : FS :=
  [("/r", FSEntry.dir), ("/r/t", FSEntry.dir), ("/r/a", FSEntry.dir),
   ("/r/a/0001_y.md", FSEntry.file "Y"), ("/r/a/0002_x.md", FSEntry.file "X")]

theorem c4_witness :
    parseOrdinal "0005_note.md" = some 5 ∧
    insertOrdinalOf (some "0005_note.md") = 5 + 1 ∧
    (pasteItemsOp "/r" "/t" ["/a/0001_y.md", "/a/0002_x.md"] none "9"
      c4fs).pastedCount = 2 ∧
    (pasteItemsOp "/r" "/t" ["/a/0001_y.md", "/a/0002_x.md"] none "9"
      c4fs).errors = [] ∧
    (pasteItemsOp "/r" "/t" ["/a/0001_y.md", "/a/0002_x.md"] none "9"
      c4fs).trace =
      FSEvent.check "/r/t" true ::
        pasteRenames "/r" "/r/t" 0 ["/a/0001_y.md", "/a/0002_x.md"] := by
  have h := c4_insert_ordinal_assignment "0005_note.md" 5 (by decide) (by decide)
    "/r" "/t" "/r/t" "9" ["/a/0001_y.md", "/a/0002_x.md"] c4fs (by decide)
    (by decide) (by decide) (by decide) (by decide) (by decide) (by decide)
    (by decide) (by decide) (by decide) (by decide) (by decide) (by decide)
    (by decide) (by decide) (by decide)
  refine ⟨by decide, h.1, ?_, h.2.2.2.2.2.1, h.2.2.2.2.2.2.1⟩
  rw [h.2.2.2.2.1]
  decide
